import Mathlib

/-!
# Verification of the MP3ify track-resolution core

A shallow embedding of the repository's two source files (`utils.py`,
`mp3ify.py`) together with proofs settling the frozen claims about the
natural-language specification.

Modelling conventions:
* Python strings are `List Char`; `str.lower` is modelled for the ASCII
  range by `lowerChar`.
* Python floats are modelled as exact rationals (`ℚ`).
* A Python call that raises an exception is modelled by `Option`/`Except`
  returning `none`/`.error`.
* `s.split(sep)` is `splitOnL`; two-target unpacking of a split
  (`x, y = s.split(sep)`, which raises `ValueError` unless the split has
  exactly two parts) is `splitTwo`; `s.split(sep, maxsplit=1)` unpacked
  into two targets is `splitFirst` (which fails exactly when `sep` does
  not occur).
* `difflib.SequenceMatcher(None, a, b).ratio()` is embedded in full,
  including the autojunk treatment of popular elements (with
  `isjunk=None` the `bjunk` set is empty, so the junk-extension loops of
  `find_longest_match` never fire; they are nevertheless embedded, with
  the junk predicate passed explicitly).
* Thread/process completion order (`as_completed`, `Pool.starmap`) is
  nondeterministic; it is modelled by an explicit `order` parameter
  listing candidate indices in completion order.
-/

namespace MP3ify

/-- The null character used as an out-of-range default for `List.getD`;
all reads are in range in reachable states. -/
def nullChar : Char := Char.ofNat 0

/-- ASCII lower-casing of one character, modelling `str.lower` on the
character range exercised here. -/
def lowerChar (c : Char) : Char :=
  if ('A') ≤ c ∧ c ≤ ('Z') then Char.ofNat (c.toNat + 32) else c

/-- Lower-case a whole string. -/
def lowerStr (s : List Char) : List Char := s.map lowerChar

/-- Python whitespace characters stripped by `str.strip()`. -/
def isPyStripSpace (c : Char) : Bool :=
  c = (' ') ∨ c = ('\t') ∨ c = ('\n') ∨ c = ('\x0d') ∨ c = ('\x0b') ∨ c = ('\x0c')

/-- `str.strip()`: remove leading and trailing whitespace. -/
def stripL (s : List Char) : List Char :=
  ((s.dropWhile isPyStripSpace).reverse.dropWhile isPyStripSpace).reverse

/-- Split a string at the first occurrence of `sep`, returning the parts
before and after it, or `none` when `sep` does not occur.  This is the
value of the two-target unpacking of `s.split(sep, maxsplit=1)`. -/
def splitFirst (sep : List Char) : List Char → Option (List Char × List Char)
  | [] => if sep.isPrefixOf ([] : List Char) ∧ sep ≠ [] then some ([], []) else none
  | c :: cs =>
    if sep.isPrefixOf (c :: cs) then some ([], (c :: cs).drop sep.length)
    else match splitFirst sep cs with
      | none => none
      | some (l, r) => some (c :: l, r)

/-- `sep in s`: substring containment, as Python's `in` operator. -/
def containsSub (sep s : List Char) : Bool := (splitFirst sep s).isSome

/-- The value of the two-target unpacking `x, y = s.split(sep)`: defined
exactly when `sep` occurs exactly once (greedy, non-overlapping);
otherwise the unpacking raises `ValueError`, modelled by `none`. -/
def splitTwo (sep s : List Char) : Option (List Char × List Char) :=
  match splitFirst sep s with
  | none => none
  | some (l, r) => match splitFirst sep r with
    | none => some (l, r)
    | some _ => none

/-- Fuel-indexed `s.split(sep)`; with fuel at least `s.length` it agrees
with Python's split (the seps used here are never empty). -/
def splitOnFuel (sep : List Char) : ℕ → List Char → List (List Char)
  | 0, s => [s]
  | f + 1, s =>
    match splitFirst sep s with
    | none => [s]
    | some (l, r) => l :: splitOnFuel sep f r

/-- `s.split(sep)` for a non-empty separator. -/
def splitOnL (sep s : List Char) : List (List Char) := splitOnFuel sep s.length s

/-- Fuel-indexed count of greedy non-overlapping occurrences of `sep`. -/
def subCountF (sep : List Char) : ℕ → List Char → ℕ
  | 0, _ => 0
  | f + 1, s =>
    match splitFirst sep s with
    | none => 0
    | some (_, r) => subCountF sep f r + 1

/-- Number of greedy non-overlapping occurrences of `sep` in `s`. -/
def occCount (sep s : List Char) : ℕ := subCountF sep s.length s

/-- `", ".join(xs)` (and similar joins). -/
def joinSep (sep : List Char) : List (List Char) → List Char
  | [] => []
  | [x] => x
  | x :: y :: xs => x ++ sep ++ joinSep sep (y :: xs)

/-! ## `difflib.SequenceMatcher` (as called with `isjunk=None`)

`utils.similarity_ratio` computes
`difflib.SequenceMatcher(None, s1.lower(), s2.lower()).ratio()`.
The constructor's `__chain_b` builds `b2j`, mapping each element of `b`
to its (ascending) list of indices, then — since `autojunk=True` and
`isjunk=None` — removes "popular" elements (when `len(b) >= 200`, those
occurring more than `len(b) // 100 + 1` times) from `b2j`, leaving the
`bjunk` set empty. -/

/-- Ascending indices at which `c` occurs in the list, starting from
index `i` (the helper behind `b2j`). -/
def positionsFrom (c : Char) : List Char → ℕ → List ℕ
  | [], _ => []
  | x :: xs, i =>
    if x = c then i :: positionsFrom c xs (i + 1) else positionsFrom c xs (i + 1)

/-- All indices of `c` in `b`, ascending. -/
def positions (b : List Char) (c : Char) : List ℕ := positionsFrom c b 0

/-- Autojunk popularity test from `SequenceMatcher.__chain_b`. -/
def bPopular (b : List Char) (c : Char) : Bool :=
  decide (200 ≤ b.length) && decide (b.length / 100 + 1 < b.count c)

/-- `b2j[c]` after `__chain_b`: positions of `c` in `b`, or `[]` when `c`
is popular (removed by autojunk). -/
def b2jList (b : List Char) (c : Char) : List ℕ :=
  if bPopular b c then [] else positions b c

/-- Running best match of `find_longest_match`. -/
structure FlmBest where
  besti : ℕ
  bestj : ℕ
  bestsize : ℕ
  deriving Repr, DecidableEq

/-- One step of the inner `for j in b2j.get(a[i])` loop: computes
`k = j2len.get(j-1, 0) + 1` from the previous row `oldLen`, records it in
the current row, and updates the best match when `k > bestsize`
(`i-k+1`/`j-k+1` written `i+1-k`/`j+1-k`, which agree in ℕ because
`k ≤ i+1` and `k ≤ j+1` in reachable states). -/
def innerStep (i : ℕ) (oldLen : ℕ → ℕ) (st : (ℕ → ℕ) × FlmBest) (j : ℕ) :
    (ℕ → ℕ) × FlmBest :=
  let k := (if j = 0 then 0 else oldLen (j - 1)) + 1
  let nj : ℕ → ℕ := fun j2 => if j2 = j then k else st.1 j2
  if st.2.bestsize < k then (nj, ⟨i + 1 - k, j + 1 - k, k⟩) else (nj, st.2)

/-- The indices scanned by the inner loop at row `i` for character `c`:
the `b2j` list, skipping `j < blo` (`continue`) and stopping at
`j ≥ bhi` (`break`; equivalent to `takeWhile` since the list is
ascending). -/
def rowJs (b : List Char) (blo bhi : ℕ) (c : Char) : List ℕ :=
  ((b2jList b c).filter (fun j => decide (blo ≤ j))).takeWhile (fun j => decide (j < bhi))

/-- One row of the main loop of `find_longest_match`: the current row's
`j2len` starts empty (`fun _ => 0`), and `k` is computed from the
previous row's `j2len`. -/
def rowStep (a b : List Char) (blo bhi : ℕ) (st : (ℕ → ℕ) × FlmBest) (i : ℕ) :
    (ℕ → ℕ) × FlmBest :=
  (rowJs b blo bhi (a.getD i nullChar)).foldl (innerStep i st.1) ((fun _ => 0), st.2)

/-- The main dynamic-programming loop of `find_longest_match`. -/
def flmMain (a b : List Char) (alo ahi blo bhi : ℕ) : FlmBest :=
  ((List.range' alo (ahi - alo)).foldl (rowStep a b blo bhi)
    ((fun _ => 0), ⟨alo, blo, 0⟩)).2

/-- First extension loop: extend backwards over equal non-junk
elements. -/
def extendNonjunkBack (a b : List Char) (junk : Char → Bool) (alo blo : ℕ) :
    ℕ → FlmBest → FlmBest
  | 0, st => st
  | f + 1, st =>
    if alo < st.besti ∧ blo < st.bestj ∧
       junk (b.getD (st.bestj - 1) nullChar) = false ∧
       a.getD (st.besti - 1) nullChar = b.getD (st.bestj - 1) nullChar then
      extendNonjunkBack a b junk alo blo f ⟨st.besti - 1, st.bestj - 1, st.bestsize + 1⟩
    else st

/-- Second extension loop: extend forwards over equal non-junk
elements. -/
def extendNonjunkFwd (a b : List Char) (junk : Char → Bool) (ahi bhi : ℕ) :
    ℕ → FlmBest → FlmBest
  | 0, st => st
  | f + 1, st =>
    if st.besti + st.bestsize < ahi ∧ st.bestj + st.bestsize < bhi ∧
       junk (b.getD (st.bestj + st.bestsize) nullChar) = false ∧
       a.getD (st.besti + st.bestsize) nullChar
         = b.getD (st.bestj + st.bestsize) nullChar then
      extendNonjunkFwd a b junk ahi bhi f ⟨st.besti, st.bestj, st.bestsize + 1⟩
    else st

/-- Third extension loop: extend backwards over equal junk elements. -/
def extendJunkBack (a b : List Char) (junk : Char → Bool) (alo blo : ℕ) :
    ℕ → FlmBest → FlmBest
  | 0, st => st
  | f + 1, st =>
    if alo < st.besti ∧ blo < st.bestj ∧
       junk (b.getD (st.bestj - 1) nullChar) = true ∧
       a.getD (st.besti - 1) nullChar = b.getD (st.bestj - 1) nullChar then
      extendJunkBack a b junk alo blo f ⟨st.besti - 1, st.bestj - 1, st.bestsize + 1⟩
    else st

/-- Fourth extension loop: extend forwards over equal junk elements. -/
def extendJunkFwd (a b : List Char) (junk : Char → Bool) (ahi bhi : ℕ) :
    ℕ → FlmBest → FlmBest
  | 0, st => st
  | f + 1, st =>
    if st.besti + st.bestsize < ahi ∧ st.bestj + st.bestsize < bhi ∧
       junk (b.getD (st.bestj + st.bestsize) nullChar) = true ∧
       a.getD (st.besti + st.bestsize) nullChar
         = b.getD (st.bestj + st.bestsize) nullChar then
      extendJunkFwd a b junk ahi bhi f ⟨st.besti, st.bestj, st.bestsize + 1⟩
    else st

/-- `find_longest_match(alo, ahi, blo, bhi)`.  The while loops are given
ample fuel (`besti` for the backward loops, `ahi` for the forward ones);
the loop conditions themselves bound the number of iterations below the
fuel. -/
def flm (a b : List Char) (junk : Char → Bool) (alo ahi blo bhi : ℕ) : FlmBest :=
  let st0 := flmMain a b alo ahi blo bhi
  let st1 := extendNonjunkBack a b junk alo blo st0.besti st0
  let st2 := extendNonjunkFwd a b junk ahi bhi ahi st1
  let st3 := extendJunkBack a b junk alo blo st2.besti st2
  extendJunkFwd a b junk ahi bhi ahi st3

/-- Total size of all matching blocks found by `get_matching_blocks`
over the region queue (fuel-indexed; `get_matching_blocks` recurses into
a sub-region only when both of its sides are non-empty, and only when
the found match is non-empty). -/
def matchTotalF (a b : List Char) (junk : Char → Bool) :
    ℕ → ℕ → ℕ → ℕ → ℕ → ℕ
  | 0, _, _, _, _ => 0
  | f + 1, alo, ahi, blo, bhi =>
    let m := flm a b junk alo ahi blo bhi
    if m.bestsize = 0 then 0
    else
      (if alo < m.besti ∧ blo < m.bestj then
        matchTotalF a b junk f alo m.besti blo m.bestj else 0)
      + m.bestsize +
      (if m.besti + m.bestsize < ahi ∧ m.bestj + m.bestsize < bhi then
        matchTotalF a b junk f (m.besti + m.bestsize) ahi (m.bestj + m.bestsize) bhi
       else 0)

/-- With `isjunk=None`, `bjunk` is empty. -/
def noJunk : Char → Bool := fun _ => false

/-- Validity of column `j` at row `i`: exactly the condition under which
the inner loop of `find_longest_match` visits `j` at row `i`. -/
def validJ (a b : List Char) (blo bhi i j : ℕ) : Prop :=
  blo ≤ j ∧ j < bhi ∧ j ∈ b2jList b (a.getD i nullChar)

/-- The diagonal-chain value that `j2len[j]` holds after row `i` of the
main loop: the length of the run of matched positions ending at `(i, j)`
(0 when `j` is not visited at row `i`). -/
def chainLen (a b : List Char) (alo blo bhi : ℕ) : ℕ → ℕ → ℕ
  | 0, j =>
    if blo ≤ j ∧ j < bhi ∧ j ∈ b2jList b (a.getD 0 nullChar) then 1 else 0
  | i + 1, j =>
    if blo ≤ j ∧ j < bhi ∧ j ∈ b2jList b (a.getD (i + 1) nullChar) then
      (if alo ≤ i ∧ blo < j then chainLen a b alo blo bhi i (j - 1) else 0) + 1
    else 0

/-- The region bounds maintained by every phase of
`find_longest_match`. -/
def BestInv (alo ahi blo bhi : ℕ) (st : FlmBest) : Prop :=
  alo ≤ st.besti ∧ st.besti + st.bestsize ≤ ahi ∧
  blo ≤ st.bestj ∧ st.bestj + st.bestsize ≤ bhi

/-- Bounds on a `j2len` row: every entry is at most `bnd`, and a nonzero
entry lies in `[blo, bhi)` with value at most `j + 1 - blo`. -/
def J2Bound (blo bhi bnd : ℕ) (g : ℕ → ℕ) : Prop :=
  ∀ j, g j ≤ bnd ∧ (g j ≠ 0 → blo ≤ j ∧ j < bhi ∧ g j ≤ j + 1 - blo)

/-! Lean marks the arithmetic of `ℚ` `@[irreducible]`, so the embedding
uses kernel-computable forms (`mkRat`, and the helpers `qadd`, `qsub`,
`qabs` below); each is proved equal to the standard operation, and the
claim theorems are stated through those equalities. -/

/-- Kernel-computable `x + y` on `ℚ` (see `qadd_eq`). -/
def qadd (x y : ℚ) : ℚ := mkRat (x.num * y.den + y.num * x.den) (x.den * y.den)

/-- Kernel-computable `x - y` on `ℚ` (see `qsub_eq`). -/
def qsub (x y : ℚ) : ℚ := mkRat (x.num * y.den - y.num * x.den) (x.den * y.den)

/-- Kernel-computable `|x|` on `ℚ` (see `qabs_eq`). -/
def qabs (x : ℚ) : ℚ := if x.num < 0 then -x else x

/-- `SequenceMatcher(None, a, b).ratio()` with floats as exact
rationals: `2 * matches / (len(a) + len(b))`, or `1.0` when both are
empty (`_calculate_ratio`). -/
def ratioQ (a b : List Char) : ℚ :=
  let total := a.length + b.length
  if total = 0 then 1
  else mkRat ((2 * matchTotalF a b noJunk (total + 1) 0 a.length 0 b.length : ℕ) : ℤ) total

/-- `utils.similarity_ratio`: the ratio of the lower-cased strings. -/
def similarity_ratio (s1 s2 : List Char) : ℚ :=
  ratioQ (lowerStr s1) (lowerStr s2)

/-! ## `utils.process_spotify_song_name` and `utils.process_yt_title` -/

/-- The marker list `feat_strings = [" feat.", " ft.", "(feat.", "(ft."]`
(same list in both normalizers). -/
def featStrings : List (List Char) :=
  [(" feat.").data, (" ft.").data, ("(feat.").data, ("(ft.").data]

/-- Parsing of one featured-artist clause:
`[artist.replace(")", "").strip() for artist in
  featured_artists.split(", " if ", " in featured_artists else "& ")]`. -/
def parseClause (clause : List Char) : List (List Char) :=
  let sep := if containsSub ((", ").data) clause then ((", ").data) else ("& ").data
  (splitOnL sep clause).map (fun a => stripL (a.filter (fun c => !(c = (')')))))

/-- The `for artist in artists: if artist not in song_artists:
song_artists.append(artist)` dedup-append loop. -/
def dedupAppend (base : List (List Char)) (xs : List (List Char)) : List (List Char) :=
  xs.foldl (fun acc a => if a ∈ acc then acc else acc ++ [a]) base

/-- The common marker step appearing both in
`process_spotify_song_name`'s loop and (for the right side) in
`process_yt_title`'s loop: if the marker occurs in the scanned string
`S`, two-way split `S` at it (a `ValueError` is `none`), overwrite the
pending title with the left part and accumulate the parsed clause of the
right part. -/
def titleSplitStep (S : List Char) (st : List (List Char) × Option (List Char))
    (feat : List Char) : Option (List (List Char) × Option (List Char)) := do
  if containsSub feat S then
    let (l, r) ← splitTwo feat S
    pure (st.1 ++ parseClause r, some l)
  else
    pure st

/-- `utils.process_spotify_song_name(song_artists, song_title)`.
The loop over `feat_strings` checks every marker against the original
`song_title` (there is no early exit): each matching marker re-splits
the title (a `ValueError` from the two-target unpacking is `none`),
overwrites `title` with the part left of that marker, and extends the
extracted artists with the parsed clause.  If no marker matched
(`artists` empty), `title = song_title`.  Finally the extracted names
are dedup-appended to `song_artists` and `title.strip()` is returned. -/
def process_spotify_song_name (song_artists : List (List Char))
    (song_title : List Char) : Option (List (List Char) × List Char) := do
  let st ← featStrings.foldlM (titleSplitStep song_title)
    (([] : List (List Char)), (none : Option (List Char)))
  let title := if st.1.isEmpty then song_title else st.2.getD song_title
  pure (dedupAppend song_artists st.1, stripL title)

/-- One marker step of `process_yt_title`'s loop acting on the left side
of the `" - "` split: accumulates `[main_artist.strip()] + featured`. -/
def ytLeftStep (left_side : List Char) (acc : List (List Char)) (feat : List Char) :
    Option (List (List Char)) := do
  if containsSub feat left_side then
    let (main, r) ← splitTwo feat left_side
    pure (acc ++ ([stripL main] ++ parseClause r))
  else
    pure acc

/-- One iteration of `process_yt_title`'s marker loop: the left-side
check followed by the right-side check (each side's `ValueError`
propagates). -/
def ytStep (left_side right_side : List Char)
    (st : List (List Char) × (List (List Char) × Option (List Char)))
    (feat : List Char) :
    Option (List (List Char) × (List (List Char) × Option (List Char))) := do
  let la ← ytLeftStep left_side st.1 feat
  let rst ← titleSplitStep right_side st.2 feat
  pure (la, rst)

/-- `utils.process_yt_title(yt_title)`.
`left_side, right_side = yt_title.split(" - ", maxsplit=1)` raises
(`none`) when `" - "` does not occur.  The marker loop checks each of the
four markers independently on both sides (no early exit).  If no marker
matched on the left, `left_artists = [left_side.strip()]`; if `title` is
falsy (never assigned, or assigned the empty string), `title =
right_side.strip()` — note the title assigned from a right-side split is
NOT stripped. -/
def process_yt_title (yt_title : List Char) :
    Option (List (List Char) × List Char) := do
  let (left_side, right_side) ← splitFirst ((" - ").data) yt_title
  let st ← featStrings.foldlM (ytStep left_side right_side)
    (([] : List (List Char)), (([] : List (List Char)), (none : Option (List Char))))
  let left_artists := if st.1.isEmpty then [stripL left_side] else st.1
  let title := match st.2.2 with
    | none => stripL right_side
    | some t => if t.isEmpty then stripL right_side else t
  pure (left_artists ++ st.2.1, title)

/-! ## `mp3ify.py`: track records, candidate matcher, resolver, batch -/

/-- A canonical Track record (`get_info_single_track`'s result shape). -/
structure TrackInfo where
  artists : List (List Char)
  song_name : List Char
  /-- Despite the name, this field holds the duration in seconds
  (`duration_ms / 1000`), exactly as in the source. -/
  duration_ms : ℚ
  search_query : List Char
  full_title : List Char
  deriving Repr, DecidableEq

/-- `mp3ify.get_info_single_track`, given the nested fields it reads from
the raw item: the artist names, the raw track name and the duration in
milliseconds.  `duration_ms / 1000` is written with `mkRat` (kernel
form of the division). -/
def get_info_single_track (artistNames : List (List Char)) (name : List Char)
    (duration_ms : ℤ) : Option TrackInfo := do
  let (artists, song_name) ← process_spotify_song_name artistNames name
  pure { artists := artists
         song_name := song_name
         duration_ms := mkRat duration_ms 1000
         search_query := joinSep ((" ").data) artists ++ (" - ").data ++ song_name
                          ++ (" autogenerated").data
         full_title := joinSep ((", ").data) artists ++ (" - ").data ++ song_name }

/-- One search-result entry, with the fields `search_single_track`
reads.  `artist`, when present, is structured artist data (a list of
names, as the spec's data model describes). -/
structure Candidate where
  duration : ℚ
  title : List Char
  artist : Option (List (List Char))
  webpage_url : List Char
  deriving Repr, DecidableEq

/-- The comparison artist/title derivation inside `search_single_track`:
`result.get('artist')` if present, else `process_yt_title(result['title'])`
(whose `ValueError` propagates, modelled by `none`). -/
def deriveArtistTitle (result : Candidate) : Option (List (List Char) × List Char) :=
  match result.artist with
  | some a => some (a, result.title)
  | none => process_yt_title result.title

/-- `mp3ify.search_single_track(result, track_info, duration_tolerance,
title_similarity_threshold, artist_similarity_threshold)`.
The outer `Option` is a raised exception (the `ValueError` from
`process_yt_title`); the inner `Option` in the first component is
`None`-vs-url.  `abs(result['duration'] - track_info['duration_ms'])`
is written `qabs (qsub ..)` (kernel form, see `qabs_eq`/`qsub_eq`). -/
def search_single_track (result : Candidate) (track_info : TrackInfo)
    (duration_tolerance title_similarity_threshold artist_similarity_threshold : ℚ) :
    Option (Option (List Char) × ℚ × ℚ) :=
  if duration_tolerance < qabs (qsub result.duration track_info.duration_ms) then
    some (none, 0, 0)
  else
    match deriveArtistTitle result with
    | none => none
    | some (artist, title) =>
      let title_similarity := similarity_ratio title track_info.song_name
      let artist_similarity :=
        similarity_ratio (joinSep ((", ").data) artist)
          (joinSep ((", ").data) track_info.artists)
      if title_similarity < title_similarity_threshold ∨
         artist_similarity < artist_similarity_threshold then
        some (none, title_similarity, artist_similarity)
      else
        some (some result.webpage_url, title_similarity, artist_similarity)

/-- Python truthiness of `match[0]` (an `Optional[str]`): `None` and the
empty string are falsy. -/
def urlTruthy (u : Option (List Char)) : Bool :=
  match u with
  | none => false
  | some s => !s.isEmpty

/-- `max(matches, key=lambda x: x[1] + x[2])` — CPython's `max` keeps the
first element and replaces it only on a strictly greater key, so the
earliest element (in the iterated order) among those with the maximal
key wins.  The sum is `qadd` (kernel form of `+`). -/
def maxBySum (m0 : Option (List Char) × ℚ × ℚ)
    (ms : List (Option (List Char) × ℚ × ℚ)) : Option (List Char) × ℚ × ℚ :=
  ms.foldl (fun best x => if qadd best.2.1 best.2.2 < qadd x.2.1 x.2.2 then x else best) m0

/-- The default parameter values of `search_youtube_single_track`
(`duration_tolerance=10`, `title_similarity_threshold=0.7`,
`artist_similarity_threshold=0.05`; the float literals are exact). -/
def defaultDurationTolerance : ℚ := 10
def defaultTitleThreshold : ℚ := mkRat 7 10
def defaultArtistThreshold : ℚ := mkRat 1 20

/-- One `as_completed` iteration inside `search_youtube_single_track`:
`future.result()` re-raises the evaluation's exception, and
`if match[0]:` keeps the truthy matches. -/
def collectStep (entries : List Candidate) (track_info : TrackInfo)
    (duration_tolerance title_similarity_threshold artist_similarity_threshold : ℚ)
    (acc : List (Option (List Char) × ℚ × ℚ)) (idx : ℕ) :
    Except (List Char) (List (Option (List Char) × ℚ × ℚ)) :=
  match search_single_track (entries.getD idx ⟨0, [], none, []⟩) track_info
          duration_tolerance title_similarity_threshold
          artist_similarity_threshold with
  | none => .error ("ValueError").data
  | some m => pure (if urlTruthy m.1 then acc ++ [m] else acc)

/-- `mp3ify.search_youtube_single_track`, after the backend call.
`searchResult` stands for the outcome of `ydl.extract_info(...)`: an
error `e` there is re-raised as `RuntimeError(f"Error searching
YouTube: {e}")`.  All candidate evaluations are submitted to a thread
pool and collected with `as_completed`, whose yield order is the
nondeterministic completion order — modelled by `order`, the list of
candidate indices in completion order (a permutation of
`0..entries.length-1`).  `future.result()` re-raises an evaluation's
exception (`.error "ValueError"`), and `if match[0]:` keeps the truthy
matches, in completion order.  If no match survived, `(None,
full_title)` is returned; otherwise the `max` by score sum. -/
def search_youtube_single_track (searchResult : Except (List Char) (List Candidate))
    (order : List ℕ) (track_info : TrackInfo)
    (duration_tolerance title_similarity_threshold artist_similarity_threshold : ℚ) :
    Except (List Char) (Option (List Char) × List Char) := do
  match searchResult with
  | .error e => .error (("Error searching YouTube: ").data ++ e)
  | .ok entries => do
    let ms ← order.foldlM
      (collectStep entries track_info duration_tolerance
        title_similarity_threshold artist_similarity_threshold)
      []
    match ms with
    | [] => pure (none, track_info.full_title)
    | m0 :: rest => pure ((maxBySum m0 rest).1, track_info.full_title)

/-- The Match produced for candidate index `i` (the value inside
`search_single_track`'s `some`, with an unreachable default for an
erroring evaluation). -/
def evalCandidate (entries : List Candidate) (track_info : TrackInfo)
    (duration_tolerance title_similarity_threshold artist_similarity_threshold : ℚ)
    (i : ℕ) : Option (List Char) × ℚ × ℚ :=
  (search_single_track (entries.getD i ⟨0, [], none, []⟩) track_info
      duration_tolerance title_similarity_threshold
      artist_similarity_threshold).getD (none, 0, 0)

/-- The candidate indices whose evaluation is accepted (truthy url). -/
def acceptedIdxs (entries : List Candidate) (track_info : TrackInfo)
    (duration_tolerance title_similarity_threshold artist_similarity_threshold : ℚ) :
    List ℕ :=
  (List.range entries.length).filter (fun i =>
    urlTruthy (evalCandidate entries track_info duration_tolerance
        title_similarity_threshold artist_similarity_threshold i).1)

/-- `mp3ify.download_track(track, failed_tracks)` for one track, given
the nondeterministic inputs of its run: the search outcome, the
completion order of candidate evaluations, and whether the download
succeeds once a URL is resolved (`ydl.download` failures are caught and
recorded; search errors are NOT caught).  Returns the entries this
track appends to `failed_tracks`, or the uncaught exception. -/
def download_track (track : TrackInfo)
    (searchResult : Except (List Char) (List Candidate)) (order : List ℕ)
    (downloadOk : Bool) : Except (List Char) (List (List Char)) := do
  match search_youtube_single_track searchResult order track
          defaultDurationTolerance defaultTitleThreshold defaultArtistThreshold with
  | .error e => .error e
  | .ok (none, title) => pure [title]
  | .ok (some _, title) => if downloadOk then pure [] else pure [title]

/-- One batch work item: a track together with the nondeterministic
outcomes of its worker's run. -/
structure BatchJob where
  track : TrackInfo
  searchResult : Except (List Char) (List Candidate)
  order : List ℕ
  downloadOk : Bool

/-- The `__main__` batch: every job is processed by a pool worker
(workers are independent, so all of them run), then `Pool.starmap`
re-raises the first worker exception in the parent — in that case the
final failure report is never produced.  Otherwise the result is the
content of `failed_tracks`, read at batch end. -/
def run_batch (jobs : List BatchJob) : Except (List Char) (List (List Char)) :=
  let outcomes := jobs.map
    (fun j => download_track j.track j.searchResult j.order j.downloadOk)
  match outcomes.findSome? (fun o => match o with | .error e => some e | .ok _ => none) with
  | some e => .error e
  | none => .ok (outcomes.flatMap (fun o => match o with | .error _ => [] | .ok l => l))

/-! # The kernel-computable rational helpers agree with the standard
operations -/

theorem qadd_eq (x y : ℚ) : qadd x y = x + y := by
  rw [qadd, Rat.mkRat_eq_divInt, Rat.divInt_eq_div]
  push_cast
  conv_rhs => rw [← Rat.num_div_den x, ← Rat.num_div_den y]
  rw [div_add_div _ _ (by positivity : (x.den : ℚ) ≠ 0)
      (by positivity : (y.den : ℚ) ≠ 0)]
  ring_nf

theorem qsub_eq (x y : ℚ) : qsub x y = x - y := by
  rw [qsub, Rat.mkRat_eq_divInt, Rat.divInt_eq_div]
  push_cast
  conv_rhs => rw [← Rat.num_div_den x, ← Rat.num_div_den y]
  rw [div_sub_div _ _ (by positivity : (x.den : ℚ) ≠ 0)
      (by positivity : (y.den : ℚ) ≠ 0)]
  ring_nf

theorem qabs_eq (x : ℚ) : qabs x = |x| := by
  rw [qabs]
  by_cases h : x.num < 0
  · have hx : x < 0 := by
      by_contra hc
      exact absurd (Rat.num_nonneg.mpr (not_lt.mp hc)) (not_le.mpr h)
    rw [if_pos h, abs_of_neg hx]
  · rw [if_neg h, abs_of_nonneg (Rat.num_nonneg.mp (not_lt.mp h))]

/-! # Lemmas about splitting and occurrence counts -/

theorem splitFirst_nil {sep : List Char} (hsep : sep ≠ []) :
    splitFirst sep [] = none := by
  cases sep with
  | nil => exact absurd rfl hsep
  | cons c cs => simp [splitFirst, List.isPrefixOf]

theorem splitFirst_length {sep : List Char} (hsep : sep ≠ []) :
    ∀ {s l r : List Char}, splitFirst sep s = some (l, r) → r.length + 1 ≤ s.length := by
  intro s
  induction s with
  | nil =>
    intro l r h
    rw [splitFirst_nil hsep] at h
    cases h
  | cons c cs ih =>
    intro l r h
    rw [splitFirst] at h
    by_cases hp : sep.isPrefixOf (c :: cs)
    · rw [if_pos hp] at h
      simp only [Option.some.injEq, Prod.mk.injEq] at h
      obtain ⟨-, hr⟩ := h
      subst hr
      have h1 : 1 ≤ sep.length := List.length_pos.mpr hsep
      simp only [List.length_drop, List.length_cons]
      omega
    · rw [if_neg hp] at h
      cases hsf : splitFirst sep cs with
      | none => rw [hsf] at h; cases h
      | some p =>
        obtain ⟨l2, r2⟩ := p
        rw [hsf] at h
        simp only [Option.some.injEq, Prod.mk.injEq] at h
        obtain ⟨-, hr⟩ := h
        subst hr
        have := ih hsf
        simp only [List.length_cons]
        omega

theorem subCountF_fuel {sep : List Char} (hsep : sep ≠ []) :
    ∀ (f : ℕ) {s : List Char} (g : ℕ), s.length ≤ f → s.length ≤ g →
      subCountF sep f s = subCountF sep g s := by
  intro f
  induction f with
  | zero =>
    intro s g hf _
    have hnil : s = [] := List.length_eq_zero.mp (Nat.le_zero.mp hf)
    subst hnil
    cases g with
    | zero => rfl
    | succ g2 => simp [subCountF, splitFirst_nil hsep]
  | succ f2 ih =>
    intro s g hf hg
    cases hsf : splitFirst sep s with
    | none =>
      cases g with
      | zero =>
        have hnil : s = [] := List.length_eq_zero.mp (Nat.le_zero.mp hg)
        subst hnil
        simp [subCountF, splitFirst_nil hsep]
      | succ g2 => simp [subCountF, hsf]
    | some p =>
      obtain ⟨l, r⟩ := p
      have hr := splitFirst_length hsep hsf
      have hs : s ≠ [] := by
        intro hnil
        subst hnil
        rw [splitFirst_nil hsep] at hsf
        cases hsf
      have hlen : 1 ≤ s.length := List.length_pos.mpr hs
      cases g with
      | zero => omega
      | succ g2 =>
        simp only [subCountF, hsf]
        rw [ih g2 (by omega) (by omega)]

theorem occCount_eq_zero {sep s : List Char}
    (hsf : splitFirst sep s = none) : occCount sep s = 0 := by
  cases s with
  | nil => simp [occCount, subCountF]
  | cons c cs =>
    rw [occCount]
    simp only [List.length_cons, subCountF, hsf]

theorem occCount_eq_succ {sep s l r : List Char} (hsep : sep ≠ [])
    (hsf : splitFirst sep s = some (l, r)) :
    occCount sep s = occCount sep r + 1 := by
  have hs : s ≠ [] := by
    intro hnil
    subst hnil
    rw [splitFirst_nil hsep] at hsf
    cases hsf
  obtain ⟨c, cs, rfl⟩ := List.exists_cons_of_ne_nil hs
  have hr := splitFirst_length hsep hsf
  rw [occCount]
  simp only [List.length_cons, subCountF, hsf]
  rw [occCount, subCountF_fuel hsep cs.length r.length (by simpa using hr) le_rfl]

theorem contains_iff_occ_pos {sep s : List Char} (hsep : sep ≠ []) :
    containsSub sep s = true ↔ 1 ≤ occCount sep s := by
  rw [containsSub]
  cases hsf : splitFirst sep s with
  | none => simp [occCount_eq_zero hsf]
  | some p =>
    obtain ⟨l, r⟩ := p
    simp [occCount_eq_succ hsep hsf]

theorem splitTwo_none_of_two {sep s : List Char} (hsep : sep ≠ [])
    (h2 : 2 ≤ occCount sep s) : splitTwo sep s = none := by
  rw [splitTwo]
  cases hsf : splitFirst sep s with
  | none => rfl
  | some p =>
    obtain ⟨l, r⟩ := p
    rw [occCount_eq_succ hsep hsf] at h2
    have hr : 1 ≤ occCount sep r := by omega
    cases hsf2 : splitFirst sep r with
    | none => rw [occCount_eq_zero hsf2] at hr; omega
    | some q => simp [hsf2]

theorem splitTwo_isSome_occ {sep s : List Char} (hsep : sep ≠ [])
    (h : (splitTwo sep s).isSome) : occCount sep s = 1 := by
  rw [splitTwo] at h
  cases hsf : splitFirst sep s with
  | none => simp only [hsf] at h; cases h
  | some p =>
    obtain ⟨l, r⟩ := p
    simp only [hsf] at h
    cases hsf2 : splitFirst sep r with
    | none =>
      rw [occCount_eq_succ hsep hsf, occCount_eq_zero hsf2]
    | some q => simp only [hsf2] at h; cases h

theorem featStrings_ne_nil {m : List Char} (hm : m ∈ featStrings) : m ≠ [] := by
  simp only [featStrings, List.mem_cons, List.not_mem_nil, or_false] at hm
  rcases hm with rfl | rfl | rfl | rfl <;> decide

/-! # Failure propagation through the marker loops (claim C10) -/

theorem foldlM_option_none {α β : Type} (step : β → α → Option β) :
    ∀ (ms : List α) (m : α), m ∈ ms → (∀ st, step st m = none) →
      ∀ st, List.foldlM step st ms = none := by
  intro ms
  induction ms with
  | nil => intro m hm; cases hm
  | cons hd tl ih =>
    intro m hm hnone st
    rw [List.foldlM_cons]
    rcases List.mem_cons.mp hm with h1 | h2
    · subst h1
      rw [hnone st]
      rfl
    · cases hstep : step st hd with
      | none => rfl
      | some st2 => simpa using ih m h2 hnone st2

theorem titleSplitStep_none {S m : List Char} (hsep : m ≠ [])
    (h2 : 2 ≤ occCount m S) : ∀ st, titleSplitStep S st m = none := by
  intro st
  have hc : containsSub m S = true := (contains_iff_occ_pos hsep).mpr (by omega)
  simp [titleSplitStep, hc, splitTwo_none_of_two hsep h2]

theorem process_spotify_none_of_marker_twice (sas : List (List Char))
    (t m : List Char) (hm : m ∈ featStrings) (h2 : 2 ≤ occCount m t) :
    process_spotify_song_name sas t = none := by
  rw [process_spotify_song_name]
  rw [foldlM_option_none _ featStrings m hm
    (titleSplitStep_none (featStrings_ne_nil hm) h2)]
  rfl

theorem ytLeftStep_none {S m : List Char} (hsep : m ≠ [])
    (h2 : 2 ≤ occCount m S) : ∀ acc, ytLeftStep S acc m = none := by
  intro acc
  have hc : containsSub m S = true := (contains_iff_occ_pos hsep).mpr (by omega)
  simp [ytLeftStep, hc, splitTwo_none_of_two hsep h2]

theorem process_yt_none_of_marker_twice (t m l r : List Char)
    (hsplit : splitFirst ((" - ").data) t = some (l, r)) (hm : m ∈ featStrings)
    (h2 : 2 ≤ occCount m l ∨ 2 ≤ occCount m r) :
    process_yt_title t = none := by
  have hsep := featStrings_ne_nil hm
  rw [process_yt_title]
  simp only [hsplit, Option.bind_eq_bind, Option.some_bind]
  rw [foldlM_option_none _ featStrings m hm ?_]
  · rfl
  · intro st
    rcases h2 with h2l | h2r
    · simp [ytStep, ytLeftStep_none hsep h2l st.1]
    · cases hL : ytLeftStep l st.1 m with
      | none => simp [ytStep, hL]
      | some la => simp [ytStep, hL, titleSplitStep_none hsep h2r st.2]

/-- Claim C10: both normalizers are partial on repeated markers — if a
marker substring occurs at least twice in the scanned string (the
catalog title for `process_spotify_song_name`; either side of the
`" - "` split for `process_yt_title`), the two-way split unpacking
raises (`none`); conversely, any defined result requires every matching
marker to occur exactly once in its scanned string. -/
theorem claim_C10_repeated_markers :
    (∀ (sas : List (List Char)) (t m : List Char), m ∈ featStrings →
        2 ≤ occCount m t → process_spotify_song_name sas t = none) ∧
    (∀ (t m l r : List Char), splitFirst ((" - ").data) t = some (l, r) →
        m ∈ featStrings → (2 ≤ occCount m l ∨ 2 ≤ occCount m r) →
        process_yt_title t = none) ∧
    (∀ (sas : List (List Char)) (t : List Char) (p : List (List Char) × List Char),
        process_spotify_song_name sas t = some p →
        ∀ m ∈ featStrings, containsSub m t = true → occCount m t = 1) ∧
    (∀ (t l r : List Char) (p : List (List Char) × List Char),
        splitFirst ((" - ").data) t = some (l, r) →
        process_yt_title t = some p →
        ∀ m ∈ featStrings,
          (containsSub m l = true → occCount m l = 1) ∧
          (containsSub m r = true → occCount m r = 1)) := by
  refine ⟨process_spotify_none_of_marker_twice,
          process_yt_none_of_marker_twice, ?_, ?_⟩
  · intro sas t p hp m hm hc
    have hsep := featStrings_ne_nil hm
    have h1 : 1 ≤ occCount m t := (contains_iff_occ_pos hsep).mp hc
    by_contra hne
    have h2 : 2 ≤ occCount m t := by omega
    rw [process_spotify_none_of_marker_twice sas t m hm h2] at hp
    cases hp
  · intro t l r p hsplit hp m hm
    have hsep := featStrings_ne_nil hm
    constructor
    · intro hc
      have h1 : 1 ≤ occCount m l := (contains_iff_occ_pos hsep).mp hc
      by_contra hne
      have h2 : 2 ≤ occCount m l := by omega
      rw [process_yt_none_of_marker_twice t m l r hsplit hm (Or.inl h2)] at hp
      cases hp
    · intro hc
      have h1 : 1 ≤ occCount m r := (contains_iff_occ_pos hsep).mp hc
      by_contra hne
      have h2 : 2 ≤ occCount m r := by omega
      rw [process_yt_none_of_marker_twice t m l r hsplit hm (Or.inr h2)] at hp
      cases hp

/-- Witness for C10 at concrete inputs: a catalog title with `" feat."`
twice makes `process_spotify_song_name` raise, and a search-result title
with `" ft."` twice on the right of `" - "` makes `process_yt_title`
raise. -/
theorem claim_C10_repeated_markers_witness :
    process_spotify_song_name [] (("a feat. b feat. c").data) = none ∧
    process_yt_title (("x - a ft. b ft. c").data) = none :=
  ⟨claim_C10_repeated_markers.1 [] (("a feat. b feat. c").data) ((" feat.").data)
      (by decide) (by decide),
   claim_C10_repeated_markers.2.1 (("x - a ft. b ft. c").data) ((" ft.").data)
      (("x").data) (("a ft. b ft. c").data) (by decide) (by decide)
      (Or.inr (by decide))⟩

/-! # Characterization of the marker loops (claims C3, C4) -/

theorem splitOnFuel_ne_nil (sep : List Char) (f : ℕ) (s : List Char) :
    splitOnFuel sep f s ≠ [] := by
  cases f with
  | zero => simp [splitOnFuel]
  | succ f2 =>
    rw [splitOnFuel]
    cases splitFirst sep s with
    | none => simp
    | some p => obtain ⟨l, r⟩ := p; simp

theorem parseClause_ne_nil (r : List Char) : parseClause r ≠ [] := by
  rw [parseClause]
  intro h
  rw [List.map_eq_nil_iff] at h
  exact splitOnFuel_ne_nil _ _ _ h

theorem titleSplitStep_foldlM (S : List Char) :
    ∀ (ms : List (List Char)) (st0 : List (List Char) × Option (List Char)),
      (∀ m ∈ ms, containsSub m S = true → (splitTwo m S).isSome) →
      List.foldlM (titleSplitStep S) st0 ms =
        some (st0.1 ++ (ms.filter (fun m => containsSub m S)).flatMap
                (fun m => parseClause ((splitTwo m S).getD ([], [])).2),
              match (ms.filter (fun m => containsSub m S)).getLast? with
              | none => st0.2
              | some m => some ((splitTwo m S).getD ([], [])).1) := by
  intro ms
  induction ms with
  | nil => intro st0 h; simp
  | cons m ms ih =>
    intro st0 h
    rw [List.foldlM_cons]
    by_cases hc : containsSub m S = true
    · obtain ⟨⟨l, r⟩, hlr⟩ := Option.isSome_iff_exists.mp
        (h m (List.mem_cons_self m ms) hc)
      have hstep : titleSplitStep S st0 m = some (st0.1 ++ parseClause r, some l) := by
        simp [titleSplitStep, hc, hlr]
      rw [hstep]
      show List.foldlM (titleSplitStep S) (st0.1 ++ parseClause r, some l) ms = _
      rw [ih _ (fun m2 hm2 => h m2 (List.mem_cons_of_mem m hm2))]
      have hfc : List.filter (fun m2 => containsSub m2 S) (m :: ms)
          = m :: List.filter (fun m2 => containsSub m2 S) ms := by
        simp [List.filter_cons, hc]
      rw [hfc, List.flatMap_cons, hlr, Option.getD_some, List.append_assoc]
      cases hrest : (List.filter (fun m2 => containsSub m2 S) ms).getLast? with
      | none =>
        have hnil : List.filter (fun m2 => containsSub m2 S) ms = [] :=
          List.getLast?_eq_none_iff.mp hrest
        simp only [hnil, List.getLast?_nil, List.getLast?_singleton, hlr,
          Option.getD_some]
      | some m2 =>
        have hne : List.filter (fun m3 => containsSub m3 S) ms ≠ [] := by
          intro hnil
          rw [hnil] at hrest
          cases hrest
        obtain ⟨x, xs, hxs⟩ := List.exists_cons_of_ne_nil hne
        rw [hxs, List.getLast?_cons_cons, ← hxs, hrest]
    · have hstep : titleSplitStep S st0 m = some st0 := by
        simp [titleSplitStep, hc]
      rw [hstep]
      show List.foldlM (titleSplitStep S) st0 ms = _
      rw [ih _ (fun m2 hm2 => h m2 (List.mem_cons_of_mem m hm2))]
      have hfc : List.filter (fun m2 => containsSub m2 S) (m :: ms)
          = List.filter (fun m2 => containsSub m2 S) ms := by
        simp [List.filter_cons, hc]
      rw [hfc]

/-- Counterexample to C3 as stated (first-match-wins): on the title
`"Song feat. B (ft. C)"` both `" feat."` and `"(ft."` are consumed — the
retained title is the part left of the LAST matching marker
(`"Song feat. B"`), not of the first (`"Song"`), and the featured names
of BOTH clauses are appended, not only those of the first. -/
theorem claim_C3_counterexample :
    process_spotify_song_name [] (("Song feat. B (ft. C)").data) =
      some ([("B (ft. C").data, ("C").data], ("Song feat. B").data) ∧
    ¬ (("Song feat. B").data = ("Song").data) ∧
    ¬ ([("B (ft. C").data, ("C").data] = [("B (ft. C").data]) := by
  decide

/-- Claim C3 (amended): `process_spotify_song_name` checks the four
markers in the fixed order with NO first-match-wins cut-off — every
matching marker is consumed (provided each matching marker occurs
exactly once, otherwise the call raises): the featured names parsed from
every matching clause are appended in marker order (skipping names
already present, case-sensitively), and the retained title is the part
left of the LAST matching marker (trimmed), or the title itself
(trimmed) when no marker matches. -/
theorem claim_C3_amended_no_first_match_wins (sas : List (List Char)) (t : List Char)
    (h : ∀ m ∈ featStrings, containsSub m t = true → (splitTwo m t).isSome) :
    process_spotify_song_name sas t =
      some (dedupAppend sas ((featStrings.filter (fun m => containsSub m t)).flatMap
              (fun m => parseClause ((splitTwo m t).getD ([], [])).2)),
            stripL (match (featStrings.filter (fun m => containsSub m t)).getLast? with
                    | none => t
                    | some m => ((splitTwo m t).getD ([], [])).1)) := by
  rw [process_spotify_song_name, titleSplitStep_foldlM t featStrings _ h]
  cases hfil : List.filter (fun m => containsSub m t) featStrings with
  | nil => simp [hfil]
  | cons x xs =>
    have hlast : (x :: xs).getLast? = some ((x :: xs).getLast (List.cons_ne_nil x xs)) :=
      List.getLast?_eq_getLast_of_ne_nil _
    have hflat : (x :: xs).flatMap
        (fun m => parseClause ((splitTwo m t).getD ([], [])).2) ≠ [] := by
      rw [List.flatMap_cons]
      intro hx
      rcases List.append_eq_nil.mp hx with ⟨h1, -⟩
      exact parseClause_ne_nil _ h1
    rw [hlast]
    simp only [Option.bind_eq_bind, Option.some_bind, List.nil_append,
      Option.getD_some, Option.some.injEq, Prod.mk.injEq]
    rw [if_neg (by simpa using hflat)]
    rfl

/-- Witness for the amended C3 at the concrete input of the
counterexample: both clauses contribute and the last marker fixes the
title. -/
theorem claim_C3_amended_no_first_match_wins_witness :
    process_spotify_song_name [] (("Song feat. B (ft. C)").data) =
      some ([("B (ft. C").data, ("C").data], ("Song feat. B").data) :=
  (claim_C3_amended_no_first_match_wins [] (("Song feat. B (ft. C)").data)
    (by decide)).trans (by decide)

theorem ytLeftStep_foldlM (S : List Char) :
    ∀ (ms : List (List Char)) (acc0 : List (List Char)),
      (∀ m ∈ ms, containsSub m S = true → (splitTwo m S).isSome) →
      List.foldlM (ytLeftStep S) acc0 ms =
        some (acc0 ++ (ms.filter (fun m => containsSub m S)).flatMap
          (fun m => [stripL ((splitTwo m S).getD ([], [])).1]
                     ++ parseClause ((splitTwo m S).getD ([], [])).2)) := by
  intro ms
  induction ms with
  | nil => intro acc0 h; simp
  | cons m ms ih =>
    intro acc0 h
    rw [List.foldlM_cons]
    by_cases hc : containsSub m S = true
    · obtain ⟨⟨l, r⟩, hlr⟩ := Option.isSome_iff_exists.mp
        (h m (List.mem_cons_self m ms) hc)
      have hstep : ytLeftStep S acc0 m
          = some (acc0 ++ ([stripL l] ++ parseClause r)) := by
        simp [ytLeftStep, hc, hlr]
      rw [hstep]
      show List.foldlM (ytLeftStep S) (acc0 ++ ([stripL l] ++ parseClause r)) ms = _
      rw [ih _ (fun m2 hm2 => h m2 (List.mem_cons_of_mem m hm2))]
      have hfc : List.filter (fun m2 => containsSub m2 S) (m :: ms)
          = m :: List.filter (fun m2 => containsSub m2 S) ms := by
        simp [List.filter_cons, hc]
      rw [hfc, List.flatMap_cons, hlr, Option.getD_some, List.append_assoc]
    · have hstep : ytLeftStep S acc0 m = some acc0 := by
        simp [ytLeftStep, hc]
      rw [hstep]
      show List.foldlM (ytLeftStep S) acc0 ms = _
      rw [ih _ (fun m2 hm2 => h m2 (List.mem_cons_of_mem m hm2))]
      have hfc : List.filter (fun m2 => containsSub m2 S) (m :: ms)
          = List.filter (fun m2 => containsSub m2 S) ms := by
        simp [List.filter_cons, hc]
      rw [hfc]

theorem ytStep_foldlM_split (l r : List Char) :
    ∀ (ms : List (List Char))
      (st0 : List (List Char) × (List (List Char) × Option (List Char))),
      List.foldlM (ytStep l r) st0 ms =
        (List.foldlM (ytLeftStep l) st0.1 ms).bind (fun la =>
          (List.foldlM (titleSplitStep r) st0.2 ms).map (fun rst => (la, rst))) := by
  intro ms
  induction ms with
  | nil => intro st0; simp
  | cons m ms ih =>
    intro st0
    rw [List.foldlM_cons, List.foldlM_cons, List.foldlM_cons]
    cases hL : ytLeftStep l st0.1 m with
    | none =>
      have hstep : ytStep l r st0 m = none := by simp [ytStep, hL]
      rw [hstep]
      simp
    | some la =>
      cases hR : titleSplitStep r st0.2 m with
      | none =>
        have hstep : ytStep l r st0 m = none := by simp [ytStep, hL, hR]
        rw [hstep]
        cases hLF : List.foldlM (ytLeftStep l) la ms <;> simp
      | some rst =>
        have hstep : ytStep l r st0 m = some (la, rst) := by simp [ytStep, hL, hR]
        rw [hstep]
        simp only [Option.bind_eq_bind, Option.some_bind]
        exact ih (la, rst)

theorem process_yt_char (t l r : List Char)
    (hsplit : splitFirst ((" - ").data) t = some (l, r))
    (hl : ∀ m ∈ featStrings, containsSub m l = true → (splitTwo m l).isSome)
    (hr : ∀ m ∈ featStrings, containsSub m r = true → (splitTwo m r).isSome) :
    process_yt_title t =
      some ((if ((featStrings.filter (fun m => containsSub m l)).flatMap
                  (fun m => [stripL ((splitTwo m l).getD ([], [])).1]
                             ++ parseClause ((splitTwo m l).getD ([], [])).2)).isEmpty
             then [stripL l]
             else (featStrings.filter (fun m => containsSub m l)).flatMap
                  (fun m => [stripL ((splitTwo m l).getD ([], [])).1]
                             ++ parseClause ((splitTwo m l).getD ([], [])).2))
            ++ (featStrings.filter (fun m => containsSub m r)).flatMap
                  (fun m => parseClause ((splitTwo m r).getD ([], [])).2),
            match (featStrings.filter (fun m => containsSub m r)).getLast? with
            | none => stripL r
            | some m => if ((splitTwo m r).getD ([], [])).1.isEmpty then stripL r
                        else ((splitTwo m r).getD ([], [])).1) := by
  rw [process_yt_title]
  simp only [hsplit, Option.bind_eq_bind, Option.some_bind]
  rw [ytStep_foldlM_split, ytLeftStep_foldlM l featStrings [] hl,
      titleSplitStep_foldlM r featStrings ([], none) hr]
  simp only [Option.bind_eq_bind, Option.some_bind, Option.map_some, List.nil_append]
  cases hlast : (featStrings.filter (fun m => containsSub m r)).getLast? with
  | none => rfl
  | some m => rfl

/-- Counterexample to C4 as stated: on `"A feat. B - Song (ft. C)"` the
artist sequence is indeed `["A","B","C"]`, but the returned title is
`"Song "` — the raw part of the right side before the marker, with its
trailing space, NOT the trimmed `"Song"`. -/
theorem claim_C4_counterexample :
    process_yt_title (("A feat. B - Song (ft. C)").data) =
      some ([("A").data, ("B").data, ("C").data], ("Song ").data) ∧
    ¬ (("Song ").data = ("Song").data) := by
  decide

/-- Claim C4 (amended): `process_yt_title "A feat. B - Song (ft. C)"`
yields artists `["A","B","C"]` and title `"Song "` (the part of the
right side before the marker, which is NOT trimmed); in general, when at
least one marker matches the right side of the `" - "` split (markers
occurring once per side, otherwise the call raises), the returned title
is the untrimmed part of the right side before the LAST matching
marker — unless that part is empty (falsy), in which case the whole
right side, trimmed, is used. -/
theorem claim_C4_amended_untrimmed_title :
    (process_yt_title (("A feat. B - Song (ft. C)").data) =
      some ([("A").data, ("B").data, ("C").data], ("Song ").data)) ∧
    (∀ (t l r m : List Char),
      splitFirst ((" - ").data) t = some (l, r) →
      (∀ m2 ∈ featStrings, containsSub m2 l = true → (splitTwo m2 l).isSome) →
      (∀ m2 ∈ featStrings, containsSub m2 r = true → (splitTwo m2 r).isSome) →
      (featStrings.filter (fun m2 => containsSub m2 r)).getLast? = some m →
      ((splitTwo m r).getD ([], [])).1.isEmpty = false →
      (process_yt_title t).map (fun p => p.2)
        = some ((splitTwo m r).getD ([], [])).1) := by
  refine ⟨by decide, ?_⟩
  intro t l r m hsplit hl hr hlast hne
  rw [process_yt_char t l r hsplit hl hr]
  simp only [Option.map_some', hlast, hne, Bool.false_eq_true, if_false]

/-- Witness for the amended C4, applying its general part at the
concrete input: the last (and only) right-side marker is `"(ft."`, and
the untrimmed part before it is `"Song "`. -/
theorem claim_C4_amended_untrimmed_title_witness :
    (process_yt_title (("A feat. B - Song (ft. C)").data)).map (fun p => p.2)
      = some (("Song ").data) := by
  have h := claim_C4_amended_untrimmed_title.2
    (("A feat. B - Song (ft. C)").data) (("A feat. B").data)
    (("Song (ft. C)").data) (("(ft.").data)
    (by decide) (by decide) (by decide) (by decide) (by decide)
  rw [h]
  decide

/-! # The resolver `search_youtube_single_track` (claim C6) -/

theorem collect_foldlM_ok (entries : List Candidate) (track : TrackInfo)
    (dt tt at_ : ℚ) :
    ∀ (ord : List ℕ) (acc : List (Option (List Char) × ℚ × ℚ)),
      (∀ i ∈ ord, search_single_track (entries.getD i ⟨0, [], none, []⟩)
          track dt tt at_ ≠ none) →
      List.foldlM (collectStep entries track dt tt at_) acc ord =
        .ok (acc ++ (ord.filter (fun i =>
              urlTruthy (evalCandidate entries track dt tt at_ i).1)).map
            (evalCandidate entries track dt tt at_)) := by
  intro ord
  induction ord with
  | nil =>
    intro acc h
    simp only [List.foldlM_nil, List.filter_nil, List.map_nil, List.append_nil]
    rfl
  | cons i ord ih =>
    intro acc h
    obtain ⟨m, hm⟩ := Option.ne_none_iff_exists.mp
      (h i (List.mem_cons_self i ord))
    have heval : evalCandidate entries track dt tt at_ i = m := by
      rw [evalCandidate, ← hm]
      rfl
    rw [List.foldlM_cons]
    have hstep : collectStep entries track dt tt at_ acc i
        = pure (if urlTruthy m.1 then acc ++ [m] else acc) := by
      rw [collectStep, ← hm]
    rw [hstep]
    show List.foldlM (collectStep entries track dt tt at_)
        (if urlTruthy m.1 then acc ++ [m] else acc) ord = _
    rw [ih _ (fun j hj => h j (List.mem_cons_of_mem i hj))]
    by_cases ht : urlTruthy m.1 = true
    · have hfc : List.filter (fun j =>
            urlTruthy (evalCandidate entries track dt tt at_ j).1) (i :: ord)
          = i :: List.filter (fun j =>
            urlTruthy (evalCandidate entries track dt tt at_ j).1) ord := by
        simp [List.filter_cons, heval, ht]
      rw [if_pos ht, hfc, List.map_cons, heval, List.append_assoc]
      rfl
    · have hfc : List.filter (fun j =>
            urlTruthy (evalCandidate entries track dt tt at_ j).1) (i :: ord)
          = List.filter (fun j =>
            urlTruthy (evalCandidate entries track dt tt at_ j).1) ord := by
        simp [List.filter_cons, heval, ht]
      rw [if_neg ht, hfc]

theorem collect_foldlM_error (entries : List Candidate) (track : TrackInfo)
    (dt tt at_ : ℚ) :
    ∀ (ord : List ℕ) (acc : List (Option (List Char) × ℚ × ℚ)) (i : ℕ),
      i ∈ ord →
      search_single_track (entries.getD i ⟨0, [], none, []⟩) track dt tt at_ = none →
      List.foldlM (collectStep entries track dt tt at_) acc ord
        = .error ("ValueError").data := by
  intro ord
  induction ord with
  | nil => intro acc i hi; cases hi
  | cons j ord ih =>
    intro acc i hi hnone
    rw [List.foldlM_cons]
    cases hj : search_single_track (entries.getD j ⟨0, [], none, []⟩) track dt tt at_ with
    | none =>
      have hstep : collectStep entries track dt tt at_ acc j
          = .error ("ValueError").data := by
        rw [collectStep, hj]
      rw [hstep]
      rfl
    | some m =>
      have hstep : collectStep entries track dt tt at_ acc j
          = pure (if urlTruthy m.1 then acc ++ [m] else acc) := by
        rw [collectStep, hj]
      rw [hstep]
      rcases List.mem_cons.mp hi with h1 | h2
      · subst h1
        rw [hnone] at hj
        cases hj
      · exact ih _ i h2 hnone

theorem maxBySum_mem (m0 : Option (List Char) × ℚ × ℚ)
    (ms : List (Option (List Char) × ℚ × ℚ)) : maxBySum m0 ms ∈ m0 :: ms := by
  induction ms generalizing m0 with
  | nil => simp [maxBySum]
  | cons x ms ih =>
    rw [maxBySum, List.foldl_cons]
    have := ih (if qadd m0.2.1 m0.2.2 < qadd x.2.1 x.2.2 then x else m0)
    rw [maxBySum] at this
    by_cases hlt : qadd m0.2.1 m0.2.2 < qadd x.2.1 x.2.2
    · rw [if_pos hlt]
      rw [if_pos hlt] at this
      rcases List.mem_cons.mp this with h1 | h2
      · exact List.mem_cons.mpr (Or.inr (List.mem_cons.mpr (Or.inl h1)))
      · exact List.mem_cons.mpr (Or.inr (List.mem_cons.mpr (Or.inr h2)))
    · rw [if_neg hlt]
      rw [if_neg hlt] at this
      rcases List.mem_cons.mp this with h1 | h2
      · exact List.mem_cons.mpr (Or.inl h1)
      · exact List.mem_cons.mpr (Or.inr (List.mem_cons.mpr (Or.inr h2)))

theorem maxBySum_le (m0 : Option (List Char) × ℚ × ℚ)
    (ms : List (Option (List Char) × ℚ × ℚ)) :
    ∀ x ∈ m0 :: ms,
      qadd x.2.1 x.2.2 ≤ qadd (maxBySum m0 ms).2.1 (maxBySum m0 ms).2.2 := by
  induction ms generalizing m0 with
  | nil =>
    intro x hx
    rcases List.mem_cons.mp hx with h1 | h2
    · subst h1; exact le_refl _
    · cases h2
  | cons y ms ih =>
    intro x hx
    rw [maxBySum, List.foldl_cons]
    have hstep : maxBySum m0 (y :: ms)
        = maxBySum (if qadd m0.2.1 m0.2.2 < qadd y.2.1 y.2.2 then y else m0) ms := by
      rw [maxBySum, List.foldl_cons, maxBySum]
    have hkey0 : qadd m0.2.1 m0.2.2
        ≤ qadd (if qadd m0.2.1 m0.2.2 < qadd y.2.1 y.2.2 then y else m0).2.1
            (if qadd m0.2.1 m0.2.2 < qadd y.2.1 y.2.2 then y else m0).2.2 := by
      by_cases hlt : qadd m0.2.1 m0.2.2 < qadd y.2.1 y.2.2
      · rw [if_pos hlt]; exact le_of_lt hlt
      · rw [if_neg hlt]
    have hkeyy : qadd y.2.1 y.2.2
        ≤ qadd (if qadd m0.2.1 m0.2.2 < qadd y.2.1 y.2.2 then y else m0).2.1
            (if qadd m0.2.1 m0.2.2 < qadd y.2.1 y.2.2 then y else m0).2.2 := by
      by_cases hlt : qadd m0.2.1 m0.2.2 < qadd y.2.1 y.2.2
      · rw [if_pos hlt]
      · rw [if_neg hlt]; exact le_of_not_lt hlt
    have hin := ih (if qadd m0.2.1 m0.2.2 < qadd y.2.1 y.2.2 then y else m0)
    rcases List.mem_cons.mp hx with h1 | h2
    · subst h1
      exact le_trans hkey0 (hin _ (List.mem_cons_self _ _))
    · rcases List.mem_cons.mp h2 with h3 | h4
      · subst h3
        exact le_trans hkeyy (hin _ (List.mem_cons_self _ _))
      · exact hin x (List.mem_cons.mpr (Or.inr h4))

theorem except_bind_ok {ε α β : Type} (v : α) (f : α → Except ε β) :
    (Except.ok v : Except ε α) >>= f = f v := rfl

instance {ε α : Type} [DecidableEq ε] [DecidableEq α] :
    DecidableEq (Except ε α) := fun a b =>
  match a, b with
  | .error e1, .error e2 =>
    if h : e1 = e2 then isTrue (by rw [h]) else isFalse (by intro hc; cases hc; exact h rfl)
  | .error _, .ok _ => isFalse (by intro hc; cases hc)
  | .ok _, .error _ => isFalse (by intro hc; cases hc)
  | .ok v1, .ok v2 =>
    if h : v1 = v2 then isTrue (by rw [h]) else isFalse (by intro hc; cases hc; exact h rfl)

/-- Counterexample to C6 as stated: two identical tied candidates
(urls `"u1"`, `"u2"`) are both accepted with score sum `2`; under the
completion order `[1, 0]` — a legal permutation of the submission
order — the resolver returns `"u2"`, not the earliest-submitted
accepted maximal candidate `"u1"`: ties are broken by the
nondeterministic `as_completed` order, not by search-result order. -/
theorem claim_C6_counterexample :
    ([1, 0].Perm (List.range 2)) ∧
    evalCandidate [⟨100, ("aaaa").data, some [("x").data], ("u1").data⟩,
        ⟨100, ("aaaa").data, some [("x").data], ("u2").data⟩]
      ⟨[("x").data], ("aaaa").data, 100, ("q").data, ("x - aaaa").data⟩
      10 (mkRat 7 10) (mkRat 1 20) 0 = (some (("u1").data), 1, 1) ∧
    evalCandidate [⟨100, ("aaaa").data, some [("x").data], ("u1").data⟩,
        ⟨100, ("aaaa").data, some [("x").data], ("u2").data⟩]
      ⟨[("x").data], ("aaaa").data, 100, ("q").data, ("x - aaaa").data⟩
      10 (mkRat 7 10) (mkRat 1 20) 1 = (some (("u2").data), 1, 1) ∧
    search_youtube_single_track
      (.ok [⟨100, ("aaaa").data, some [("x").data], ("u1").data⟩,
            ⟨100, ("aaaa").data, some [("x").data], ("u2").data⟩])
      [1, 0] ⟨[("x").data], ("aaaa").data, 100, ("q").data, ("x - aaaa").data⟩
      10 (mkRat 7 10) (mkRat 1 20)
      = .ok (some (("u2").data), ("x - aaaa").data) ∧
    ¬ (("u2").data = ("u1").data) := by
  decide

/-- Claim C6 (amended): for every completion order (any permutation of
the candidate indices) and error-free evaluations, the resolver returns
the url of SOME accepted match maximizing `title_score + artist_score`
(which accepted maximal match wins a tie depends on the completion
order); with zero accepted matches it returns no url together with the
track's `full_title`. -/
theorem claim_C6_amended_max_sum (entries : List Candidate) (track : TrackInfo)
    (dt tt at_ : ℚ) (ord : List ℕ)
    (hperm : ord.Perm (List.range entries.length))
    (hok : ∀ i ∈ ord, search_single_track (entries.getD i ⟨0, [], none, []⟩)
        track dt tt at_ ≠ none) :
    (acceptedIdxs entries track dt tt at_ = [] →
      search_youtube_single_track (.ok entries) ord track dt tt at_
        = .ok (none, track.full_title)) ∧
    (acceptedIdxs entries track dt tt at_ ≠ [] →
      ∃ i ∈ acceptedIdxs entries track dt tt at_,
        search_youtube_single_track (.ok entries) ord track dt tt at_
          = .ok ((evalCandidate entries track dt tt at_ i).1, track.full_title) ∧
        ∀ j ∈ acceptedIdxs entries track dt tt at_,
          (evalCandidate entries track dt tt at_ j).2.1
            + (evalCandidate entries track dt tt at_ j).2.2
          ≤ (evalCandidate entries track dt tt at_ i).2.1
            + (evalCandidate entries track dt tt at_ i).2.2) := by
  have hcol := collect_foldlM_ok entries track dt tt at_ ord [] hok
  have hpf : (ord.filter (fun i =>
        urlTruthy (evalCandidate entries track dt tt at_ i).1)).Perm
      (acceptedIdxs entries track dt tt at_) :=
    hperm.filter _
  have hres : search_youtube_single_track (.ok entries) ord track dt tt at_
      = match (ord.filter (fun i =>
            urlTruthy (evalCandidate entries track dt tt at_ i).1)).map
          (evalCandidate entries track dt tt at_) with
        | [] => .ok (none, track.full_title)
        | m0 :: rest => .ok ((maxBySum m0 rest).1, track.full_title) := by
    rw [search_youtube_single_track]
    show (List.foldlM _ [] ord) >>= _ = _
    rw [hcol, except_bind_ok, List.nil_append]
    cases (ord.filter (fun i =>
        urlTruthy (evalCandidate entries track dt tt at_ i).1)).map
        (evalCandidate entries track dt tt at_) with
    | nil => rfl
    | cons m0 rest => rfl
  constructor
  · intro hacc
    rw [hacc] at hpf
    rw [hres, hpf.eq_nil, List.map_nil]
  · intro hacc
    have hfil : ord.filter (fun i =>
        urlTruthy (evalCandidate entries track dt tt at_ i).1) ≠ [] := by
      intro hnil
      rw [hnil] at hpf
      exact hacc hpf.symm.eq_nil
    cases hmap : (ord.filter (fun i =>
        urlTruthy (evalCandidate entries track dt tt at_ i).1)).map
        (evalCandidate entries track dt tt at_) with
    | nil => exact absurd (List.map_eq_nil_iff.mp hmap) hfil
    | cons m0 rest =>
      have hmem := maxBySum_mem m0 rest
      rw [← hmap] at hmem
      obtain ⟨i, hi, hev⟩ := List.mem_map.mp hmem
      refine ⟨i, hpf.mem_iff.mp hi, ?_, ?_⟩
      · rw [hres, hmap, hev]
      · intro j hj
        have hjf := hpf.mem_iff.mpr hj
        have hjm : evalCandidate entries track dt tt at_ j
            ∈ m0 :: rest := by
          rw [← hmap]
          exact List.mem_map_of_mem _ hjf
        have hle := maxBySum_le m0 rest _ hjm
        rw [← hev] at hle
        rw [← qadd_eq, ← qadd_eq]
        exact hle

/-- Witness for the amended C6: a single accepted candidate resolves to
its url. -/
theorem claim_C6_amended_max_sum_witness :
    search_youtube_single_track
      (.ok [⟨100, ("aaaa").data, some [("x").data], ("u1").data⟩]) [0]
      ⟨[("x").data], ("aaaa").data, 100, ("q").data, ("x - aaaa").data⟩
      10 (mkRat 7 10) (mkRat 1 20)
      = .ok (some (("u1").data), ("x - aaaa").data) := by
  obtain ⟨i, hi, heq, -⟩ :=
    (claim_C6_amended_max_sum
      [⟨100, ("aaaa").data, some [("x").data], ("u1").data⟩]
      ⟨[("x").data], ("aaaa").data, 100, ("q").data, ("x - aaaa").data⟩
      10 (mkRat 7 10) (mkRat 1 20) [0] (by decide) (by decide)).2 (by decide)
  have hi0 : i = 0 := by
    rw [show acceptedIdxs [⟨100, ("aaaa").data, some [("x").data], ("u1").data⟩]
        ⟨[("x").data], ("aaaa").data, 100, ("q").data, ("x - aaaa").data⟩
        10 (mkRat 7 10) (mkRat 1 20) = [0] from by decide] at hi
    simpa using hi
  subst hi0
  rw [heq]
  decide

/-! # Error propagation: malformed titles and search failures
(claims C1, C2) -/

theorem findSome?_isSome_of_mem {α β : Type} (f : α → Option β) :
    ∀ (l : List α) (x : α), x ∈ l → (f x).isSome →
      ∃ y, l.findSome? f = some y := by
  intro l
  induction l with
  | nil => intro x hx; cases hx
  | cons hd tl ih =>
    intro x hx hfx
    rw [List.findSome?_cons]
    cases hhd : f hd with
    | some b => exact ⟨b, rfl⟩
    | none =>
      rcases List.mem_cons.mp hx with h1 | h2
      · subst h1
        rw [hhd] at hfx
        cases hfx
      · exact ih x h2 hfx

theorem search_single_track_malformed (c : Candidate) (t : TrackInfo)
    (dt tt at_ : ℚ) (hgate : ¬ dt < |c.duration - t.duration_ms|)
    (hart : c.artist = none)
    (hsep : splitFirst ((" - ").data) c.title = none) :
    search_single_track c t dt tt at_ = none := by
  rw [search_single_track, if_neg (by rw [qabs_eq, qsub_eq]; exact hgate)]
  have hderive : deriveArtistTitle c = none := by
    rw [deriveArtistTitle, hart, process_yt_title]
    simp [hsep]
  rw [hderive]

theorem search_youtube_error_of_candidate (entries : List Candidate)
    (ord : List ℕ) (track : TrackInfo) (dt tt at_ : ℚ) (i : ℕ) (hi : i ∈ ord)
    (hnone : search_single_track (entries.getD i ⟨0, [], none, []⟩)
        track dt tt at_ = none) :
    search_youtube_single_track (.ok entries) ord track dt tt at_
      = .error ("ValueError").data := by
  rw [search_youtube_single_track]
  show (List.foldlM _ [] ord) >>= _ = _
  rw [collect_foldlM_error entries track dt tt at_ ord [] i hi hnone]
  rfl

theorem run_batch_error_of_job (jobs : List BatchJob) (j : BatchJob)
    (hj : j ∈ jobs)
    (he : ∃ e, download_track j.track j.searchResult j.order j.downloadOk
        = .error e) :
    ∃ e2, run_batch jobs = .error e2 := by
  obtain ⟨e, he⟩ := he
  rw [run_batch]
  have hmem : download_track j.track j.searchResult j.order j.downloadOk
      ∈ jobs.map (fun j2 =>
        download_track j2.track j2.searchResult j2.order j2.downloadOk) :=
    List.mem_map_of_mem _ hj
  obtain ⟨y, hy⟩ := findSome?_isSome_of_mem
    (fun o => match o with | .error e2 => some e2 | .ok _ => none) _ _ hmem
    (by rw [he]; rfl)
  rw [hy]
  exact ⟨y, rfl⟩

theorem download_track_search_error (track : TrackInfo) (e : List Char)
    (ord : List ℕ) (dOk : Bool) :
    download_track track (.error e) ord dOk
      = .error (("Error searching YouTube: ").data ++ e) := by
  rw [download_track]
  rfl

/-- Counterexample to C1 as stated: a candidate whose title has no
`" - "` separator and no structured artist field (and which passes the
duration gate) makes `search_single_track` raise (`none`), the resolver
re-raise (`future.result()`), and the whole two-track batch abort with
the uncaught `ValueError` — no failure report is produced and the other
track is not reported, instead of the candidate merely being excluded. -/
theorem claim_C1_counterexample :
    search_single_track ⟨100, ("NoSeparator").data, none, ("u").data⟩
      ⟨[("x").data], ("aaaa").data, 100, ("q").data, ("x - aaaa").data⟩
      10 (mkRat 7 10) (mkRat 1 20) = none ∧
    search_youtube_single_track
      (.ok [⟨100, ("NoSeparator").data, none, ("u").data⟩]) [0]
      ⟨[("x").data], ("aaaa").data, 100, ("q").data, ("x - aaaa").data⟩
      10 (mkRat 7 10) (mkRat 1 20) = .error (("ValueError").data) ∧
    run_batch
      [⟨⟨[("x").data], ("aaaa").data, 100, ("q").data, ("x - aaaa").data⟩,
        .ok [⟨100, ("NoSeparator").data, none, ("u").data⟩], [0], true⟩,
       ⟨⟨[("y").data], ("bbbb").data, 100, ("q2").data, ("y - bbbb").data⟩,
        .ok [], [], true⟩]
      = .error (("ValueError").data) := by
  decide

/-- Claim C1 (amended): for a candidate whose raw title contains no
`" - "` separator and which carries no structured artist field (and
which passes the duration gate — otherwise it is rejected before the
title is parsed), the evaluation raises an uncaught `ValueError`
(`MalformedTitle`); `future.result()` re-raises it inside the resolver,
so the whole track resolution fails with the error, and the error
propagates through `download_track` uncaught, aborting the batch run
(no failure report is produced) — it does NOT merely exclude that
single candidate. -/
theorem claim_C1_amended_malformed_fatal :
    (∀ (c : Candidate) (t : TrackInfo) (dt tt at_ : ℚ),
      ¬ dt < |c.duration - t.duration_ms| → c.artist = none →
      splitFirst ((" - ").data) c.title = none →
      search_single_track c t dt tt at_ = none) ∧
    (∀ (entries : List Candidate) (ord : List ℕ) (track : TrackInfo)
        (dt tt at_ : ℚ) (i : ℕ), i ∈ ord →
      search_single_track (entries.getD i ⟨0, [], none, []⟩) track dt tt at_ = none →
      search_youtube_single_track (.ok entries) ord track dt tt at_
        = .error ("ValueError").data) ∧
    (∀ (jobs : List BatchJob) (j : BatchJob) (i : ℕ), j ∈ jobs →
      i ∈ j.order →
      (match j.searchResult with
       | .ok entries => search_single_track (entries.getD i ⟨0, [], none, []⟩)
           j.track defaultDurationTolerance defaultTitleThreshold
           defaultArtistThreshold = none
       | .error _ => False) →
      (∃ e2, run_batch jobs = .error e2) ∧ ∀ l, run_batch jobs ≠ .ok l) := by
  refine ⟨search_single_track_malformed, search_youtube_error_of_candidate, ?_⟩
  intro jobs j i hj hi hbad
  cases hsr : j.searchResult with
  | error e => rw [hsr] at hbad; cases hbad
  | ok entries =>
    rw [hsr] at hbad
    have hdl : download_track j.track j.searchResult j.order j.downloadOk
        = .error ("ValueError").data := by
      rw [download_track, hsr,
        search_youtube_error_of_candidate entries j.order j.track _ _ _ i hi hbad]
    have herr := run_batch_error_of_job jobs j hj ⟨_, hdl⟩
    refine ⟨herr, ?_⟩
    obtain ⟨e2, he2⟩ := herr
    intro l hl
    rw [he2] at hl
    cases hl

/-- Witness for the amended C1 at the counterexample's concrete batch. -/
theorem claim_C1_amended_malformed_fatal_witness :
    (∃ e2, run_batch
      [⟨⟨[("x").data], ("aaaa").data, 100, ("q").data, ("x - aaaa").data⟩,
        .ok [⟨100, ("NoSeparator").data, none, ("u").data⟩], [0], true⟩]
      = .error e2) ∧
    ∀ l, run_batch
      [⟨⟨[("x").data], ("aaaa").data, 100, ("q").data, ("x - aaaa").data⟩,
        .ok [⟨100, ("NoSeparator").data, none, ("u").data⟩], [0], true⟩]
      ≠ .ok l :=
  claim_C1_amended_malformed_fatal.2.2
    [⟨⟨[("x").data], ("aaaa").data, 100, ("q").data, ("x - aaaa").data⟩,
      .ok [⟨100, ("NoSeparator").data, none, ("u").data⟩], [0], true⟩]
    ⟨⟨[("x").data], ("aaaa").data, 100, ("q").data, ("x - aaaa").data⟩,
      .ok [⟨100, ("NoSeparator").data, none, ("u").data⟩], [0], true⟩
    0 (List.mem_singleton.mpr rfl) (by decide) (by decide)

/-- Counterexample to C2 as stated: a batch of two tracks whose first
track's search call raises aborts with the re-raised `RuntimeError`; no
failure report is produced, so the failing track's `display_title`
never reaches the FailureLog and the other track is not reported. -/
theorem claim_C2_counterexample :
    search_youtube_single_track (.error (("boom").data)) [0]
      ⟨[("x").data], ("aaaa").data, 100, ("q").data, ("x - aaaa").data⟩
      10 (mkRat 7 10) (mkRat 1 20)
      = .error (("Error searching YouTube: boom").data) ∧
    run_batch
      [⟨⟨[("x").data], ("aaaa").data, 100, ("q").data, ("x - aaaa").data⟩,
        .error (("boom").data), [0], true⟩,
       ⟨⟨[("y").data], ("bbbb").data, 100, ("q2").data, ("y - bbbb").data⟩,
        .ok [], [], true⟩]
      = .error (("Error searching YouTube: boom").data) := by
  decide

/-- Claim C2 (amended): a `SearchError` is re-raised by the resolver as
`RuntimeError("Error searching YouTube: ...")` and caught nowhere:
`download_track` propagates it, the track is NOT recorded in the
FailureLog, and the batch run aborts with the error — the final failure
report is never produced (tracks only reach the FailureLog when they
resolve to no URL or when their download step fails). -/
theorem claim_C2_amended_search_error_fatal :
    (∀ (e : List Char) (ord : List ℕ) (track : TrackInfo) (dt tt at_ : ℚ),
      search_youtube_single_track (.error e) ord track dt tt at_
        = .error (("Error searching YouTube: ").data ++ e)) ∧
    (∀ (track : TrackInfo) (e : List Char) (ord : List ℕ) (dOk : Bool),
      download_track track (.error e) ord dOk
        = .error (("Error searching YouTube: ").data ++ e)) ∧
    (∀ (jobs : List BatchJob) (j : BatchJob) (e : List Char), j ∈ jobs →
      j.searchResult = .error e →
      (∃ e2, run_batch jobs = .error e2) ∧ ∀ l, run_batch jobs ≠ .ok l) := by
  refine ⟨fun e ord track dt tt at_ => rfl, download_track_search_error, ?_⟩
  intro jobs j e hj hsr
  have hdl : download_track j.track j.searchResult j.order j.downloadOk
      = .error (("Error searching YouTube: ").data ++ e) := by
    rw [hsr]
    exact download_track_search_error j.track e j.order j.downloadOk
  have herr := run_batch_error_of_job jobs j hj ⟨_, hdl⟩
  refine ⟨herr, ?_⟩
  obtain ⟨e2, he2⟩ := herr
  intro l hl
  rw [he2] at hl
  cases hl

/-- Witness for the amended C2 at a concrete one-job batch. -/
theorem claim_C2_amended_search_error_fatal_witness :
    (∃ e2, run_batch
      [⟨⟨[("x").data], ("aaaa").data, 100, ("q").data, ("x - aaaa").data⟩,
        .error (("net down").data), [], true⟩]
      = .error e2) ∧
    ∀ l, run_batch
      [⟨⟨[("x").data], ("aaaa").data, 100, ("q").data, ("x - aaaa").data⟩,
        .error (("net down").data), [], true⟩]
      ≠ .ok l :=
  claim_C2_amended_search_error_fatal.2.2
    [⟨⟨[("x").data], ("aaaa").data, 100, ("q").data, ("x - aaaa").data⟩,
      .error (("net down").data), [], true⟩]
    ⟨⟨[("x").data], ("aaaa").data, 100, ("q").data, ("x - aaaa").data⟩,
      .error (("net down").data), [], true⟩
    (("net down").data) (List.mem_singleton.mpr rfl) rfl

/-! # The candidate matcher `search_single_track` (claims C5, C8, C7) -/

theorem search_single_track_gate (c : Candidate) (t : TrackInfo) (dt tt at_ : ℚ)
    (h : dt < |c.duration - t.duration_ms|) :
    search_single_track c t dt tt at_ = some (none, 0, 0) := by
  rw [search_single_track, if_pos (by rw [qabs_eq, qsub_eq]; exact h)]

theorem search_single_track_eval (c : Candidate) (t : TrackInfo) (dt tt at_ : ℚ)
    (A : List (List Char)) (T : List Char)
    (hgate : ¬ dt < |c.duration - t.duration_ms|)
    (hd : deriveArtistTitle c = some (A, T)) :
    search_single_track c t dt tt at_ =
      if similarity_ratio T t.song_name < tt ∨
         similarity_ratio (joinSep ((", ").data) A)
           (joinSep ((", ").data) t.artists) < at_ then
        some (none, similarity_ratio T t.song_name,
          similarity_ratio (joinSep ((", ").data) A)
            (joinSep ((", ").data) t.artists))
      else
        some (some c.webpage_url, similarity_ratio T t.song_name,
          similarity_ratio (joinSep ((", ").data) A)
            (joinSep ((", ").data) t.artists)) := by
  rw [search_single_track, if_neg (by rw [qabs_eq, qsub_eq]; exact hgate), hd]

/-- Claim C5: the duration gate is a hard cutoff applied before any text
comparison — a candidate farther than `duration_tolerance` from the
target duration is rejected with no url and scores `(0,0)` whatever its
text; a candidate at exactly `duration_tolerance` passes the gate and is
accepted (with the candidate's url) whenever the two similarity
thresholds pass. -/
theorem claim_C5_duration_gate :
    (∀ (c : Candidate) (t : TrackInfo) (dt tt at_ : ℚ),
        dt < |c.duration - t.duration_ms| →
        search_single_track c t dt tt at_ = some (none, 0, 0)) ∧
    (∀ (c : Candidate) (t : TrackInfo) (dt tt at_ : ℚ)
        (A : List (List Char)) (T : List Char),
        |c.duration - t.duration_ms| = dt →
        deriveArtistTitle c = some (A, T) →
        ¬ similarity_ratio T t.song_name < tt →
        ¬ similarity_ratio (joinSep ((", ").data) A)
            (joinSep ((", ").data) t.artists) < at_ →
        search_single_track c t dt tt at_ =
          some (some c.webpage_url, similarity_ratio T t.song_name,
            similarity_ratio (joinSep ((", ").data) A)
              (joinSep ((", ").data) t.artists))) := by
  refine ⟨search_single_track_gate, ?_⟩
  intro c t dt tt at_ A T hdt hd h1 h2
  rw [search_single_track_eval c t dt tt at_ A T (by rw [hdt]; exact lt_irrefl dt) hd,
      if_neg (not_or.mpr ⟨h1, h2⟩)]

/-- Witness for C5: a candidate 100 s off a 100 s track is gated out with
scores `(0,0)` despite textually perfect fields; a candidate exactly
10 s off (the default tolerance) with perfect fields is accepted. -/
theorem claim_C5_duration_gate_witness :
    search_single_track ⟨200, ("X").data, some [("A").data], ("u2").data⟩
        ⟨[("A").data], ("X").data, 100, ("q").data, ("A - X").data⟩
        10 (mkRat 7 10) (mkRat 1 20) = some (none, 0, 0) ∧
    search_single_track ⟨110, ("X").data, some [("A").data], ("u1").data⟩
        ⟨[("A").data], ("X").data, 100, ("q").data, ("A - X").data⟩
        10 (mkRat 7 10) (mkRat 1 20) = some (some (("u1").data), 1, 1) :=
  ⟨claim_C5_duration_gate.1 ⟨200, ("X").data, some [("A").data], ("u2").data⟩
      ⟨[("A").data], ("X").data, 100, ("q").data, ("A - X").data⟩
      10 (mkRat 7 10) (mkRat 1 20) (by rw [← qsub_eq, ← qabs_eq]; decide),
   (claim_C5_duration_gate.2 ⟨110, ("X").data, some [("A").data], ("u1").data⟩
      ⟨[("A").data], ("X").data, 100, ("q").data, ("A - X").data⟩
      10 (mkRat 7 10) (mkRat 1 20) [("A").data] (("X").data)
      (by rw [← qsub_eq, ← qabs_eq]; decide) (by decide)
      (by decide) (by decide)).trans (by decide)⟩

/-- Claim C8 (amended): a Match without a url carries scores `(0,0)` when
the candidate was rejected by the duration gate, but when rejected by
the similarity thresholds it carries the computed similarity scores,
which need not be `0`. -/
theorem claim_C8_amended_rejected_scores :
    (∀ (c : Candidate) (t : TrackInfo) (dt tt at_ : ℚ),
        dt < |c.duration - t.duration_ms| →
        search_single_track c t dt tt at_ = some (none, 0, 0)) ∧
    (∀ (c : Candidate) (t : TrackInfo) (dt tt at_ : ℚ)
        (A : List (List Char)) (T : List Char),
        ¬ dt < |c.duration - t.duration_ms| →
        deriveArtistTitle c = some (A, T) →
        (similarity_ratio T t.song_name < tt ∨
         similarity_ratio (joinSep ((", ").data) A)
           (joinSep ((", ").data) t.artists) < at_) →
        search_single_track c t dt tt at_ =
          some (none, similarity_ratio T t.song_name,
            similarity_ratio (joinSep ((", ").data) A)
              (joinSep ((", ").data) t.artists))) := by
  refine ⟨search_single_track_gate, ?_⟩
  intro c t dt tt at_ A T hgate hd hrej
  rw [search_single_track_eval c t dt tt at_ A T hgate hd, if_pos hrej]

/-- Counterexample to C8 as stated: a candidate that passes the duration
gate but fails the title threshold yields a url-less Match whose
`title_score` is `1/2` and whose `artist_score` is `1` — not `(0,0)`. -/
theorem claim_C8_counterexample :
    search_single_track ⟨100, ("aabb").data, some [("x").data], ("u").data⟩
        ⟨[("x").data], ("aaaa").data, 100, ("q").data, ("x - aaaa").data⟩
        10 (mkRat 7 10) (mkRat 1 20) = some (none, mkRat 1 2, 1) ∧
    ¬ (mkRat 1 2 = (0 : ℚ)) := by
  decide

/-- Witness for the amended C8 at concrete inputs. -/
theorem claim_C8_amended_rejected_scores_witness :
    search_single_track ⟨200, ("X").data, some [("A").data], ("w2").data⟩
        ⟨[("A").data], ("X").data, 100, ("q").data, ("A - X").data⟩
        10 (mkRat 7 10) (mkRat 1 20) = some (none, 0, 0) ∧
    search_single_track ⟨100, ("aabb").data, some [("y").data], ("w1").data⟩
        ⟨[("y").data], ("aaaa").data, 100, ("q").data, ("y - aaaa").data⟩
        10 (mkRat 7 10) (mkRat 1 20) =
      some (none, similarity_ratio (("aabb").data) (("aaaa").data),
        similarity_ratio (joinSep ((", ").data) [("y").data])
          (joinSep ((", ").data) [("y").data])) :=
  ⟨claim_C8_amended_rejected_scores.1 ⟨200, ("X").data, some [("A").data], ("w2").data⟩
      ⟨[("A").data], ("X").data, 100, ("q").data, ("A - X").data⟩
      10 (mkRat 7 10) (mkRat 1 20) (by rw [← qsub_eq, ← qabs_eq]; decide),
   claim_C8_amended_rejected_scores.2 ⟨100, ("aabb").data, some [("y").data], ("w1").data⟩
      ⟨[("y").data], ("aaaa").data, 100, ("q").data, ("y - aaaa").data⟩
      10 (mkRat 7 10) (mkRat 1 20) [("y").data] (("aabb").data)
      (by rw [← qsub_eq, ← qabs_eq]; decide) (by decide)
      (Or.inl (by decide))⟩

/-! # `SequenceMatcher` development (claims C7, C9)

The two facts needed about `ratioQ` are that it always lies in `[0, 1]`
and that it is `1` on identical strings.  The first follows from bounds
on `find_longest_match` (the match it returns lies inside the region),
the second from a diagonal analysis of the main loop on two equal
strings: every strict improvement of the best match happens on the
diagonal, so the extension loops afterwards extend the (diagonal) best
match to the whole aligned region. -/

theorem mem_positionsFrom {c : Char} :
    ∀ (l : List Char) (st j : ℕ),
      j ∈ positionsFrom c l st ↔
        ∃ t, t < l.length ∧ j = st + t ∧ l.getD t nullChar = c := by
  intro l
  induction l with
  | nil => intro st j; simp [positionsFrom]
  | cons x xs ih =>
    intro st j
    rw [positionsFrom]
    by_cases hx : x = c
    · rw [if_pos hx]
      constructor
      · intro hm
        rcases List.mem_cons.mp hm with h1 | h2
        · exact ⟨0, by simp, by omega, by simpa using hx⟩
        · obtain ⟨t, ht, hj, hc⟩ := (ih (st + 1) j).mp h2
          exact ⟨t + 1, by simpa using ht, by omega, by simpa using hc⟩
      · rintro ⟨t, ht, hj, hc⟩
        cases t with
        | zero => subst hj; simp
        | succ t2 =>
          refine List.mem_cons.mpr (Or.inr ((ih (st + 1) j).mpr ?_))
          exact ⟨t2, by simpa using ht, by omega, by simpa using hc⟩
    · rw [if_neg hx]
      constructor
      · intro hm
        obtain ⟨t, ht, hj, hc⟩ := (ih (st + 1) j).mp hm
        exact ⟨t + 1, by simpa using ht, by omega, by simpa using hc⟩
      · rintro ⟨t, ht, hj, hc⟩
        cases t with
        | zero =>
          exact absurd (by simpa using hc) hx
        | succ t2 =>
          exact (ih (st + 1) j).mpr ⟨t2, by simpa using ht, by omega, by simpa using hc⟩

theorem mem_positions {b : List Char} {c : Char} {j : ℕ} :
    j ∈ positions b c ↔ j < b.length ∧ b.getD j nullChar = c := by
  rw [positions, mem_positionsFrom]
  constructor
  · rintro ⟨t, ht, hj, hc⟩
    have hjt : j = t := by omega
    subst hjt
    exact ⟨ht, hc⟩
  · rintro ⟨hj, hc⟩
    exact ⟨j, hj, by omega, hc⟩

theorem mem_b2jList {b : List Char} {c : Char} {j : ℕ} :
    j ∈ b2jList b c ↔ bPopular b c = false ∧ j < b.length ∧ b.getD j nullChar = c := by
  rw [b2jList]
  by_cases hp : bPopular b c
  · simp [hp]
  · simp only [if_neg hp, mem_positions]
    simp [hp]

theorem positionsFrom_ge {c : Char} :
    ∀ (l : List Char) (st : ℕ), ∀ j ∈ positionsFrom c l st, st ≤ j := by
  intro l st j hj
  obtain ⟨t, -, hj2, -⟩ := (mem_positionsFrom l st j).mp hj
  omega

theorem positionsFrom_sorted {c : Char} :
    ∀ (l : List Char) (st : ℕ), (positionsFrom c l st).Pairwise (· < ·) := by
  intro l
  induction l with
  | nil => intro st; simp [positionsFrom]
  | cons x xs ih =>
    intro st
    rw [positionsFrom]
    by_cases hx : x = c
    · rw [if_pos hx]
      refine List.pairwise_cons.mpr ⟨?_, ih (st + 1)⟩
      intro j hj
      have := positionsFrom_ge xs (st + 1) j hj
      omega
    · rw [if_neg hx]
      exact ih (st + 1)

theorem b2jList_sorted (b : List Char) (c : Char) :
    (b2jList b c).Pairwise (· < ·) := by
  rw [b2jList]
  by_cases hp : bPopular b c
  · simp [hp]
  · rw [if_neg hp]
    exact positionsFrom_sorted b 0

theorem mem_takeWhile_sorted {bhi : ℕ} :
    ∀ {l : List ℕ}, l.Pairwise (· < ·) →
      ∀ {j : ℕ}, j ∈ l.takeWhile (fun x => decide (x < bhi)) ↔ j ∈ l ∧ j < bhi := by
  intro l
  induction l with
  | nil => intro hs j; simp
  | cons x xs ih =>
    intro hs j
    obtain ⟨hx, hxs⟩ := List.pairwise_cons.mp hs
    rw [List.takeWhile_cons]
    by_cases hxb : x < bhi
    · rw [if_pos (decide_eq_true hxb)]
      rw [List.mem_cons, List.mem_cons, ih hxs]
      constructor
      · rintro (h1 | ⟨h2, h3⟩)
        · subst h1; exact ⟨Or.inl rfl, hxb⟩
        · exact ⟨Or.inr h2, h3⟩
      · rintro ⟨h1 | h2, h3⟩
        · exact Or.inl h1
        · exact Or.inr ⟨h2, h3⟩
    · rw [if_neg (by simpa using hxb)]
      rw [List.mem_cons]
      constructor
      · intro hm
        exact absurd hm (List.not_mem_nil j)
      · rintro ⟨h1 | h2, h3⟩
        · subst h1; omega
        · have := hx j h2; omega

theorem rowJs_sorted (b : List Char) (blo bhi : ℕ) (c : Char) :
    (rowJs b blo bhi c).Pairwise (· < ·) := by
  rw [rowJs]
  exact List.Pairwise.sublist (List.takeWhile_sublist _)
    (List.Pairwise.filter _ (b2jList_sorted b c))

theorem mem_rowJs {b : List Char} {blo bhi : ℕ} {c : Char} {j : ℕ} :
    j ∈ rowJs b blo bhi c ↔ j ∈ b2jList b c ∧ blo ≤ j ∧ j < bhi := by
  rw [rowJs, mem_takeWhile_sorted (List.Pairwise.filter _ (b2jList_sorted b c))]
  rw [List.mem_filter]
  constructor
  · rintro ⟨⟨h1, h2⟩, h3⟩
    exact ⟨h1, by simpa using h2, h3⟩
  · rintro ⟨h1, h2, h3⟩
    exact ⟨⟨h1, by simpa using h2⟩, h3⟩

theorem mem_rowJs_validJ {a b : List Char} {blo bhi i j : ℕ} :
    j ∈ rowJs b blo bhi (a.getD i nullChar) ↔ validJ a b blo bhi i j := by
  rw [mem_rowJs, validJ]
  tauto

/-! ## Basic facts about `chainLen` -/

theorem chainLen_eq_zero {a b : List Char} {alo blo bhi i j : ℕ}
    (h : ¬ validJ a b blo bhi i j) : chainLen a b alo blo bhi i j = 0 := by
  rw [validJ] at h
  cases i with
  | zero => rw [chainLen, if_neg h]
  | succ i2 => rw [chainLen, if_neg h]

theorem chainLen_of_valid {a b : List Char} {alo blo bhi i j : ℕ}
    (h : validJ a b blo bhi i j) :
    chainLen a b alo blo bhi i j =
      (if alo < i ∧ blo < j then chainLen a b alo blo bhi (i - 1) (j - 1) else 0)
        + 1 := by
  rw [validJ] at h
  cases i with
  | zero =>
    rw [chainLen, if_pos h]
    have : ¬ (alo < 0 ∧ blo < j) := by omega
    rw [if_neg this]
  | succ i2 =>
    rw [chainLen, if_pos h]
    simp only [Nat.lt_succ_iff, Nat.add_sub_cancel]

theorem chainLen_le_row {a b : List Char} {alo blo bhi : ℕ} :
    ∀ {i : ℕ} (j : ℕ), alo ≤ i → chainLen a b alo blo bhi i j ≤ i + 1 - alo := by
  intro i
  induction i with
  | zero =>
    intro j halo
    by_cases h : validJ a b blo bhi 0 j
    · rw [chainLen_of_valid h, if_neg (by omega)]
      omega
    · rw [chainLen_eq_zero h]
      omega
  | succ i2 ih =>
    intro j halo
    by_cases h : validJ a b blo bhi (i2 + 1) j
    · rw [chainLen_of_valid h]
      by_cases hg : alo < i2 + 1 ∧ blo < j
      · rw [if_pos hg]
        have := ih (j - 1) (by omega)
        simp only [Nat.add_sub_cancel]
        omega
      · rw [if_neg hg]
        omega
    · rw [chainLen_eq_zero h]
      omega

theorem chainLen_le_col {a b : List Char} {alo blo bhi : ℕ} :
    ∀ {i : ℕ} (j : ℕ), chainLen a b alo blo bhi i j ≤ j + 1 - blo := by
  intro i
  induction i with
  | zero =>
    intro j
    by_cases h : validJ a b blo bhi 0 j
    · have hj := h.1
      rw [chainLen_of_valid h, if_neg (by omega)]
      omega
    · rw [chainLen_eq_zero h]
      omega
  | succ i2 ih =>
    intro j
    by_cases h : validJ a b blo bhi (i2 + 1) j
    · have hj := h.1
      rw [chainLen_of_valid h]
      by_cases hg : alo < i2 + 1 ∧ blo < j
      · rw [if_pos hg]
        have := ih (j - 1)
        simp only [Nat.add_sub_cancel]
        omega
      · rw [if_neg hg]
        omega
    · rw [chainLen_eq_zero h]
      omega

/-! ## Bounds through `find_longest_match` -/

theorem innerFold_bounds {alo ahi blo bhi i : ℕ}
    (hialo : alo ≤ i) (hiahi : i < ahi) (oldLen : ℕ → ℕ)
    (hold : J2Bound blo bhi (i - alo) oldLen) :
    ∀ (js : List ℕ) (nj : ℕ → ℕ) (best : FlmBest),
      (∀ j ∈ js, blo ≤ j ∧ j < bhi) →
      J2Bound blo bhi (i + 1 - alo) nj →
      BestInv alo ahi blo bhi best →
      J2Bound blo bhi (i + 1 - alo) (js.foldl (innerStep i oldLen) (nj, best)).1 ∧
      BestInv alo ahi blo bhi (js.foldl (innerStep i oldLen) (nj, best)).2 := by
  intro js
  induction js with
  | nil => intro nj best hjs hnj hbest; exact ⟨hnj, hbest⟩
  | cons j js ih =>
    intro nj best hjs hnj hbest
    obtain ⟨hjlo, hjhi⟩ := hjs j (List.mem_cons_self j js)
    rw [List.foldl_cons]
    set k := (if j = 0 then 0 else oldLen (j - 1)) + 1 with hk
    have hkrow : k ≤ i + 1 - alo := by
      rw [hk]
      by_cases hj0 : j = 0
      · rw [if_pos hj0]; omega
      · rw [if_neg hj0]
        have := (hold (j - 1)).1
        omega
    have hkcol : k ≤ j + 1 - blo := by
      rw [hk]
      by_cases hj0 : j = 0
      · rw [if_pos hj0]; omega
      · rw [if_neg hj0]
        by_cases hz : oldLen (j - 1) = 0
        · rw [hz]; omega
        · have := (hold (j - 1)).2 hz
          omega
    have hstep : innerStep i oldLen (nj, best) j =
        ((fun j2 => if j2 = j then k else nj j2),
         if best.bestsize < k then ⟨i + 1 - k, j + 1 - k, k⟩ else best) := by
      rw [innerStep]
      by_cases hlt : best.bestsize < k
      · rw [if_pos hlt, if_pos hlt]
      · rw [if_neg hlt, if_neg hlt]
    rw [hstep]
    refine ih _ _ (fun j2 hj2 => hjs j2 (List.mem_cons_of_mem j hj2)) ?_ ?_
    · intro j2
      by_cases hj2 : j2 = j
      · subst hj2
        refine ⟨by simpa using hkrow, fun _ => ⟨hjlo, hjhi, by simpa using hkcol⟩⟩
      · simp only [if_neg hj2]
        exact hnj j2
    · by_cases hlt : best.bestsize < k
      · rw [if_pos hlt]
        refine ⟨?_, ?_, ?_, ?_⟩
        · show alo ≤ i + 1 - k
          omega
        · show (i + 1 - k) + k ≤ ahi
          omega
        · show blo ≤ j + 1 - k
          omega
        · show (j + 1 - k) + k ≤ bhi
          omega
      · rw [if_neg hlt]
        exact hbest

theorem rowStep_bounds {a b : List Char} {alo ahi blo bhi : ℕ} {i n : ℕ}
    (hi : i = alo + n) (hiahi : i < ahi)
    {st : (ℕ → ℕ) × FlmBest}
    (hj2 : J2Bound blo bhi n st.1) (hbest : BestInv alo ahi blo bhi st.2) :
    J2Bound blo bhi (n + 1) (rowStep a b blo bhi st i).1 ∧
    BestInv alo ahi blo bhi (rowStep a b blo bhi st i).2 := by
  subst hi
  rw [rowStep]
  have hold : J2Bound blo bhi (alo + n - alo) st.1 := by
    rw [show alo + n - alo = n from by omega]
    exact hj2
  have h := innerFold_bounds (by omega) hiahi st.1 hold
    (rowJs b blo bhi (a.getD (alo + n) nullChar)) (fun _ => 0) st.2
    (fun j hj => by
      have := mem_rowJs.mp hj
      exact ⟨this.2.1, this.2.2⟩)
    (fun j => ⟨Nat.zero_le _, fun hc => absurd rfl hc⟩)
    hbest
  rw [show alo + n + 1 - alo = n + 1 from by omega] at h
  exact h

theorem flmMain_bounds (a b : List Char) (alo ahi blo bhi : ℕ)
    (halo : alo ≤ ahi) (hblo : blo ≤ bhi) :
    BestInv alo ahi blo bhi (flmMain a b alo ahi blo bhi) := by
  rw [flmMain]
  suffices h : ∀ n, n ≤ ahi - alo →
      J2Bound blo bhi n
        ((List.range' alo n).foldl (rowStep a b blo bhi)
          ((fun _ => 0), ⟨alo, blo, 0⟩)).1 ∧
      BestInv alo ahi blo bhi
        ((List.range' alo n).foldl (rowStep a b blo bhi)
          ((fun _ => 0), ⟨alo, blo, 0⟩)).2 by
    exact (h (ahi - alo) le_rfl).2
  intro n
  induction n with
  | zero =>
    intro hn
    rw [show List.range' alo 0 = [] from rfl, List.foldl_nil]
    refine ⟨fun j => ⟨Nat.zero_le _, fun hc => absurd rfl hc⟩, ?_, ?_, ?_, ?_⟩
    · show alo ≤ alo
      omega
    · show alo + 0 ≤ ahi
      omega
    · show blo ≤ blo
      omega
    · show blo + 0 ≤ bhi
      omega
  | succ n2 ih =>
    intro hn
    obtain ⟨ihj, ihb⟩ := ih (by omega)
    rw [List.range'_1_concat, List.foldl_append, List.foldl_cons, List.foldl_nil]
    exact rowStep_bounds rfl (by omega) ihj ihb

theorem extendNonjunkBack_bounds {a b : List Char} {junk : Char → Bool}
    {alo ahi blo bhi : ℕ} :
    ∀ (f : ℕ) (st : FlmBest), BestInv alo ahi blo bhi st →
      BestInv alo ahi blo bhi (extendNonjunkBack a b junk alo blo f st) := by
  intro f
  induction f with
  | zero => intro st h; exact h
  | succ f2 ih =>
    intro st h
    rw [extendNonjunkBack]
    by_cases hc : alo < st.besti ∧ blo < st.bestj ∧
        junk (b.getD (st.bestj - 1) nullChar) = false ∧
        a.getD (st.besti - 1) nullChar = b.getD (st.bestj - 1) nullChar
    · rw [if_pos hc]
      refine ih _ ?_
      obtain ⟨h1, h2, h3, h4⟩ := h
      refine ⟨?_, ?_, ?_, ?_⟩
      · show alo ≤ st.besti - 1
        omega
      · show (st.besti - 1) + (st.bestsize + 1) ≤ ahi
        omega
      · show blo ≤ st.bestj - 1
        omega
      · show (st.bestj - 1) + (st.bestsize + 1) ≤ bhi
        omega
    · rw [if_neg hc]
      exact h

theorem extendNonjunkFwd_bounds {a b : List Char} {junk : Char → Bool}
    {alo ahi blo bhi : ℕ} :
    ∀ (f : ℕ) (st : FlmBest), BestInv alo ahi blo bhi st →
      BestInv alo ahi blo bhi (extendNonjunkFwd a b junk ahi bhi f st) := by
  intro f
  induction f with
  | zero => intro st h; exact h
  | succ f2 ih =>
    intro st h
    rw [extendNonjunkFwd]
    by_cases hc : st.besti + st.bestsize < ahi ∧ st.bestj + st.bestsize < bhi ∧
        junk (b.getD (st.bestj + st.bestsize) nullChar) = false ∧
        a.getD (st.besti + st.bestsize) nullChar
          = b.getD (st.bestj + st.bestsize) nullChar
    · rw [if_pos hc]
      refine ih _ ?_
      obtain ⟨h1, h2, h3, h4⟩ := h
      refine ⟨?_, ?_, ?_, ?_⟩
      · show alo ≤ st.besti
        omega
      · show st.besti + (st.bestsize + 1) ≤ ahi
        omega
      · show blo ≤ st.bestj
        omega
      · show st.bestj + (st.bestsize + 1) ≤ bhi
        omega
    · rw [if_neg hc]
      exact h

theorem extendJunkBack_bounds {a b : List Char} {junk : Char → Bool}
    {alo ahi blo bhi : ℕ} :
    ∀ (f : ℕ) (st : FlmBest), BestInv alo ahi blo bhi st →
      BestInv alo ahi blo bhi (extendJunkBack a b junk alo blo f st) := by
  intro f
  induction f with
  | zero => intro st h; exact h
  | succ f2 ih =>
    intro st h
    rw [extendJunkBack]
    by_cases hc : alo < st.besti ∧ blo < st.bestj ∧
        junk (b.getD (st.bestj - 1) nullChar) = true ∧
        a.getD (st.besti - 1) nullChar = b.getD (st.bestj - 1) nullChar
    · rw [if_pos hc]
      refine ih _ ?_
      obtain ⟨h1, h2, h3, h4⟩ := h
      refine ⟨?_, ?_, ?_, ?_⟩
      · show alo ≤ st.besti - 1
        omega
      · show (st.besti - 1) + (st.bestsize + 1) ≤ ahi
        omega
      · show blo ≤ st.bestj - 1
        omega
      · show (st.bestj - 1) + (st.bestsize + 1) ≤ bhi
        omega
    · rw [if_neg hc]
      exact h

theorem extendJunkFwd_bounds {a b : List Char} {junk : Char → Bool}
    {alo ahi blo bhi : ℕ} :
    ∀ (f : ℕ) (st : FlmBest), BestInv alo ahi blo bhi st →
      BestInv alo ahi blo bhi (extendJunkFwd a b junk ahi bhi f st) := by
  intro f
  induction f with
  | zero => intro st h; exact h
  | succ f2 ih =>
    intro st h
    rw [extendJunkFwd]
    by_cases hc : st.besti + st.bestsize < ahi ∧ st.bestj + st.bestsize < bhi ∧
        junk (b.getD (st.bestj + st.bestsize) nullChar) = true ∧
        a.getD (st.besti + st.bestsize) nullChar
          = b.getD (st.bestj + st.bestsize) nullChar
    · rw [if_pos hc]
      refine ih _ ?_
      obtain ⟨h1, h2, h3, h4⟩ := h
      refine ⟨?_, ?_, ?_, ?_⟩
      · show alo ≤ st.besti
        omega
      · show st.besti + (st.bestsize + 1) ≤ ahi
        omega
      · show blo ≤ st.bestj
        omega
      · show st.bestj + (st.bestsize + 1) ≤ bhi
        omega
    · rw [if_neg hc]
      exact h

theorem flm_bounds (a b : List Char) (junk : Char → Bool) (alo ahi blo bhi : ℕ)
    (halo : alo ≤ ahi) (hblo : blo ≤ bhi) :
    BestInv alo ahi blo bhi (flm a b junk alo ahi blo bhi) := by
  rw [flm]
  exact extendJunkFwd_bounds _ _ (extendJunkBack_bounds _ _
    (extendNonjunkFwd_bounds _ _ (extendNonjunkBack_bounds _ _
      (flmMain_bounds a b alo ahi blo bhi halo hblo))))

theorem matchTotalF_le (a b : List Char) (junk : Char → Bool) :
    ∀ (f : ℕ) (alo ahi blo bhi : ℕ), alo ≤ ahi → blo ≤ bhi →
      matchTotalF a b junk f alo ahi blo bhi
        ≤ min (ahi - alo) (bhi - blo) := by
  intro f
  induction f with
  | zero => intro alo ahi blo bhi h1 h2; rw [matchTotalF]; omega
  | succ f2 ih =>
    intro alo ahi blo bhi h1 h2
    rw [matchTotalF]
    obtain ⟨hb1, hb2, hb3, hb4⟩ := flm_bounds a b junk alo ahi blo bhi h1 h2
    set m := flm a b junk alo ahi blo bhi with hm
    by_cases hk : m.bestsize = 0
    · rw [if_pos hk]
      omega
    · rw [if_neg hk]
      have hleft : (if alo < m.besti ∧ blo < m.bestj then
          matchTotalF a b junk f2 alo m.besti blo m.bestj else 0)
            ≤ min (m.besti - alo) (m.bestj - blo) := by
        by_cases hg : alo < m.besti ∧ blo < m.bestj
        · rw [if_pos hg]
          exact ih alo m.besti blo m.bestj (by omega) (by omega)
        · rw [if_neg hg]
          omega
      have hright : (if m.besti + m.bestsize < ahi ∧ m.bestj + m.bestsize < bhi then
          matchTotalF a b junk f2 (m.besti + m.bestsize) ahi
            (m.bestj + m.bestsize) bhi else 0)
            ≤ min (ahi - (m.besti + m.bestsize)) (bhi - (m.bestj + m.bestsize)) := by
        by_cases hg : m.besti + m.bestsize < ahi ∧ m.bestj + m.bestsize < bhi
        · rw [if_pos hg]
          exact ih _ _ _ _ (by omega) (by omega)
        · rw [if_neg hg]
          omega
      omega

theorem ratioQ_nonneg (a b : List Char) : 0 ≤ ratioQ a b := by
  rw [ratioQ]
  by_cases h : a.length + b.length = 0
  · rw [if_pos h]
    norm_num
  · rw [if_neg h, Rat.mkRat_eq_divInt, Rat.divInt_eq_div]
    positivity

theorem ratioQ_le_one (a b : List Char) : ratioQ a b ≤ 1 := by
  rw [ratioQ]
  by_cases h : a.length + b.length = 0
  · rw [if_pos h]
  · rw [if_neg h, Rat.mkRat_eq_divInt, Rat.divInt_eq_div]
    have hM := matchTotalF_le a b noJunk (a.length + b.length + 1)
      0 a.length 0 b.length (Nat.zero_le _) (Nat.zero_le _)
    have hpos : 0 < a.length + b.length := Nat.pos_of_ne_zero h
    rw [div_le_one (by exact_mod_cast hpos)]
    have h2 : 2 * matchTotalF a b noJunk (a.length + b.length + 1)
        0 a.length 0 b.length ≤ a.length + b.length := by
      simp only [Nat.sub_zero] at hM
      omega
    exact_mod_cast h2

/-! ## The `j2len` row holds exactly the chain values -/

theorem innerStep_k_char {a b : List Char} {alo blo bhi i j : ℕ} (oldLen : ℕ → ℕ)
    (hOld : ∀ j2, oldLen j2
      = if alo < i then chainLen a b alo blo bhi (i - 1) j2 else 0)
    (hv : validJ a b blo bhi i j) :
    (if j = 0 then 0 else oldLen (j - 1)) + 1 = chainLen a b alo blo bhi i j := by
  rw [chainLen_of_valid hv]
  congr 1
  by_cases hj0 : j = 0
  · rw [if_pos hj0, if_neg (by omega)]
  · rw [if_neg hj0, hOld (j - 1)]
    by_cases hai : alo < i
    · rw [if_pos hai]
      by_cases hbj : blo < j
      · rw [if_pos ⟨hai, hbj⟩]
      · rw [if_neg (fun hc => hbj hc.2)]
        refine chainLen_eq_zero (fun hc => hbj ?_)
        have := hc.1
        omega
    · rw [if_neg hai, if_neg (fun hc => hai hc.1)]

theorem innerStep_fst (i : ℕ) (oldLen : ℕ → ℕ) (nj : ℕ → ℕ) (best : FlmBest)
    (j : ℕ) :
    (innerStep i oldLen (nj, best) j).1
      = fun j2 => if j2 = j
          then (if j = 0 then 0 else oldLen (j - 1)) + 1 else nj j2 := by
  rw [innerStep]
  by_cases hlt : best.bestsize < (if j = 0 then 0 else oldLen (j - 1)) + 1
  · rw [if_pos hlt]
  · rw [if_neg hlt]

theorem innerFold_j2 {a b : List Char} {alo blo bhi i : ℕ} (oldLen : ℕ → ℕ)
    (hOld : ∀ j2, oldLen j2
      = if alo < i then chainLen a b alo blo bhi (i - 1) j2 else 0) :
    ∀ (js : List ℕ), (∀ j ∈ js, validJ a b blo bhi i j) →
      ∀ (nj : ℕ → ℕ) (best : FlmBest) (j2 : ℕ),
        (js.foldl (innerStep i oldLen) (nj, best)).1 j2
          = if j2 ∈ js then chainLen a b alo blo bhi i j2 else nj j2 := by
  intro js
  induction js with
  | nil => intro hjs nj best j2; simp
  | cons j js ih =>
    intro hjs nj best j2
    rw [List.foldl_cons]
    have hv := hjs j (List.mem_cons_self j js)
    have hk := innerStep_k_char oldLen hOld hv
    have hfst := innerStep_fst i oldLen nj best j
    have hrest := ih (fun j3 hj3 => hjs j3 (List.mem_cons_of_mem j hj3))
      (innerStep i oldLen (nj, best) j).1 (innerStep i oldLen (nj, best) j).2 j2
    rw [show ((innerStep i oldLen (nj, best) j).1, (innerStep i oldLen (nj, best) j).2)
        = innerStep i oldLen (nj, best) j from rfl] at hrest
    rw [hrest, hfst]
    by_cases hmem : j2 ∈ js
    · rw [if_pos hmem, if_pos (List.mem_cons_of_mem j hmem)]
    · rw [if_neg hmem]
      by_cases hj2 : j2 = j
      · subst hj2
        rw [if_pos (List.mem_cons_self j2 js)]
        simpa using hk
      · rw [if_neg (fun hc => (List.mem_cons.mp hc).elim hj2 hmem)]
        show (if j2 = j then (if j = 0 then 0 else oldLen (j - 1)) + 1 else nj j2)
          = nj j2
        rw [if_neg hj2]

theorem rowStep_j2 {a b : List Char} {alo blo bhi i : ℕ}
    {st : (ℕ → ℕ) × FlmBest}
    (hOld : ∀ j2, st.1 j2
      = if alo < i then chainLen a b alo blo bhi (i - 1) j2 else 0) :
    ∀ j2, (rowStep a b blo bhi st i).1 j2 = chainLen a b alo blo bhi i j2 := by
  intro j2
  rw [rowStep]
  rw [innerFold_j2 st.1 hOld _ (fun j hj => mem_rowJs_validJ.mp hj) _ st.2 j2]
  by_cases hmem : j2 ∈ rowJs b blo bhi (a.getD i nullChar)
  · rw [if_pos hmem]
  · rw [if_neg hmem]
    rw [chainLen_eq_zero (fun hv => hmem (mem_rowJs_validJ.mpr hv))]

theorem rowsFold_j2 {a b : List Char} {alo blo bhi : ℕ} :
    ∀ (n : ℕ) (j2 : ℕ),
      ((List.range' alo n).foldl (rowStep a b blo bhi)
          ((fun _ => 0), (⟨alo, blo, 0⟩ : FlmBest))).1 j2
        = if alo < alo + n then chainLen a b alo blo bhi (alo + n - 1) j2
          else 0 := by
  intro n
  induction n with
  | zero =>
    intro j2
    rw [show List.range' alo 0 = [] from rfl, List.foldl_nil, if_neg (by omega)]
  | succ n2 ih =>
    intro j2
    rw [List.range'_1_concat, List.foldl_append, List.foldl_cons, List.foldl_nil]
    rw [rowStep_j2 ih j2, if_pos (by omega),
      show alo + (n2 + 1) - 1 = alo + n2 from by omega]

/-! ## On two equal strings the best match stays on the diagonal -/

theorem validJ_diag_self {a : List Char} {alo bhi i j : ℕ}
    (hv : validJ a a alo bhi i j) : validJ a a alo bhi j j := by
  obtain ⟨h1, h2, h3⟩ := hv
  obtain ⟨hp, hlt, heq⟩ := mem_b2jList.mp h3
  refine ⟨h1, h2, mem_b2jList.mpr ⟨?_, hlt, rfl⟩⟩
  rw [heq]
  exact hp

theorem validJ_symm_self {a : List Char} {alo bhi i j : ℕ}
    (hlen : bhi ≤ a.length) (hai : alo ≤ i) (hbi : i < bhi)
    (hv : validJ a a alo bhi i j) : validJ a a alo bhi j i := by
  obtain ⟨h1, h2, h3⟩ := hv
  obtain ⟨hp, hlt, heq⟩ := mem_b2jList.mp h3
  refine ⟨hai, hbi, mem_b2jList.mpr ⟨?_, by omega, heq.symm⟩⟩
  rw [heq]
  exact hp

theorem chainLen_le_diag_self {a : List Char} {alo bhi : ℕ} :
    ∀ (i j : ℕ), chainLen a a alo alo bhi i j ≤ chainLen a a alo alo bhi j j := by
  intro i
  induction i with
  | zero =>
    intro j
    by_cases hv : validJ a a alo bhi 0 j
    · have hvjj := validJ_diag_self hv
      rw [chainLen_of_valid hv, if_neg (by omega), chainLen_of_valid hvjj]
      omega
    · rw [chainLen_eq_zero hv]
      omega
  | succ i2 ih =>
    intro j
    by_cases hv : validJ a a alo bhi (i2 + 1) j
    · have hvjj := validJ_diag_self hv
      rw [chainLen_of_valid hv, chainLen_of_valid hvjj]
      by_cases hg : alo < i2 + 1 ∧ alo < j
      · rw [if_pos hg, if_pos ⟨hg.2, hg.2⟩]
        have := ih (j - 1)
        simp only [Nat.add_sub_cancel]
        omega
      · rw [if_neg hg]
        by_cases hg2 : alo < j ∧ alo < j
        · rw [if_pos hg2]
          omega
        · rw [if_neg hg2]
    · rw [chainLen_eq_zero hv]
      omega

theorem innerStep_snd (i : ℕ) (oldLen : ℕ → ℕ) (nj : ℕ → ℕ) (best : FlmBest)
    (j : ℕ) :
    (innerStep i oldLen (nj, best) j).2
      = if best.bestsize < (if j = 0 then 0 else oldLen (j - 1)) + 1
        then (⟨i + 1 - ((if j = 0 then 0 else oldLen (j - 1)) + 1),
              j + 1 - ((if j = 0 then 0 else oldLen (j - 1)) + 1),
              (if j = 0 then 0 else oldLen (j - 1)) + 1⟩ : FlmBest)
        else best := by
  rw [innerStep]
  by_cases hlt : best.bestsize < (if j = 0 then 0 else oldLen (j - 1)) + 1
  · rw [if_pos hlt, if_pos hlt]
  · rw [if_neg hlt, if_neg hlt]

theorem chainLen_symm_self {a : List Char} {alo bhi : ℕ} (hlen : bhi ≤ a.length) :
    ∀ (i j : ℕ), alo ≤ i → alo ≤ j → i < bhi → j < bhi →
      chainLen a a alo alo bhi i j = chainLen a a alo alo bhi j i := by
  intro i
  induction i with
  | zero =>
    intro j hai haj hbi hbj
    by_cases hv : validJ a a alo bhi 0 j
    · have hvt := validJ_symm_self hlen hai hbi hv
      rw [chainLen_of_valid hv, chainLen_of_valid hvt,
        if_neg (by omega), if_neg (by omega)]
    · have hvt : ¬ validJ a a alo bhi j 0 :=
        fun hc => hv (validJ_symm_self hlen haj hbj hc)
      rw [chainLen_eq_zero hv, chainLen_eq_zero hvt]
  | succ i2 ih =>
    intro j hai haj hbi hbj
    by_cases hv : validJ a a alo bhi (i2 + 1) j
    · have hvt := validJ_symm_self hlen hai hbi hv
      rw [chainLen_of_valid hv, chainLen_of_valid hvt]
      simp only [Nat.add_sub_cancel]
      by_cases hg : alo < i2 + 1 ∧ alo < j
      · rw [if_pos hg, if_pos ⟨hg.2, hg.1⟩]
        rw [ih (j - 1) (by omega) (by omega) (by omega) (by omega)]
      · rw [if_neg hg, if_neg (fun hc => hg ⟨hc.2, hc.1⟩)]
    · have hvt : ¬ validJ a a alo bhi j (i2 + 1) :=
        fun hc => hv (validJ_symm_self hlen haj hbj hc)
      rw [chainLen_eq_zero hv, chainLen_eq_zero hvt]

theorem innerFold_diag {a : List Char} {alo bhi i : ℕ} (oldLen : ℕ → ℕ)
    (hOld : ∀ j2, oldLen j2
      = if alo < i then chainLen a a alo alo bhi (i - 1) j2 else 0)
    (hlen : bhi ≤ a.length) (hai : alo ≤ i) (hibh : i < bhi) :
    ∀ (js : List ℕ), js.Pairwise (· < ·) →
      (∀ j ∈ js, validJ a a alo bhi i j) →
      ∀ (nj : ℕ → ℕ) (best : FlmBest),
        best.besti = best.bestj →
        (∀ i2, alo ≤ i2 → i2 < i →
          chainLen a a alo alo bhi i2 i2 ≤ best.bestsize) →
        (i ∉ js → chainLen a a alo alo bhi i i ≤ best.bestsize) →
        (js.foldl (innerStep i oldLen) (nj, best)).2.besti
          = (js.foldl (innerStep i oldLen) (nj, best)).2.bestj
        ∧ (∀ i2, alo ≤ i2 → i2 < i →
            chainLen a a alo alo bhi i2 i2
              ≤ (js.foldl (innerStep i oldLen) (nj, best)).2.bestsize)
        ∧ chainLen a a alo alo bhi i i
            ≤ (js.foldl (innerStep i oldLen) (nj, best)).2.bestsize := by
  intro js
  induction js with
  | nil =>
    intro _ _ nj best hdiag hstar hcur
    exact ⟨hdiag, hstar, hcur (by simp)⟩
  | cons j rest ih =>
    intro hsort hval nj best hdiag hstar hcur
    rw [List.foldl_cons]
    have hvj : validJ a a alo bhi i j := hval j (List.mem_cons_self j rest)
    have hk : (if j = 0 then 0 else oldLen (j - 1)) + 1
        = chainLen a a alo alo bhi i j := innerStep_k_char oldLen hOld hvj
    have hstep2 : (innerStep i oldLen (nj, best) j).2
        = if best.bestsize < chainLen a a alo alo bhi i j
          then (⟨i + 1 - chainLen a a alo alo bhi i j,
                j + 1 - chainLen a a alo alo bhi i j,
                chainLen a a alo alo bhi i j⟩ : FlmBest)
          else best := by rw [innerStep_snd, hk]
    have happ := ih (List.Pairwise.sublist (List.sublist_cons_self j rest) hsort)
      (fun j3 hj3 => hval j3 (List.mem_cons_of_mem j hj3))
      (innerStep i oldLen (nj, best) j).1 (innerStep i oldLen (nj, best) j).2
    rw [show ((innerStep i oldLen (nj, best) j).1, (innerStep i oldLen (nj, best) j).2)
        = innerStep i oldLen (nj, best) j from rfl] at happ
    rcases Nat.lt_trichotomy j i with hji | hji | hji
    · -- j < i: the chain at (i, j) is dominated by the earlier diagonal j
      have hnoup : ¬ best.bestsize < chainLen a a alo alo bhi i j := by
        have h1 : chainLen a a alo alo bhi i j ≤ chainLen a a alo alo bhi j j :=
          chainLen_le_diag_self i j
        have h2 := hstar j hvj.1 hji
        omega
      rw [hstep2, if_neg hnoup] at happ
      refine happ hdiag hstar (fun hni => hcur ?_)
      intro hc
      exact (List.mem_cons.mp hc).elim (by omega) hni
    · -- j = i: a diagonal update (or no update)
      subst hji
      by_cases hup : best.bestsize < chainLen a a alo alo bhi j j
      · rw [hstep2, if_pos hup] at happ
        refine happ rfl (fun i2 h1 h2 => ?_) (fun _ => le_refl _)
        show chainLen a a alo alo bhi i2 i2 ≤ chainLen a a alo alo bhi j j
        have := hstar i2 h1 h2
        omega
      · rw [hstep2, if_neg hup] at happ
        exact happ hdiag hstar (fun _ => by omega)
    · -- i < j: the transposed chain is dominated by diagonal i, already final
      have hii : chainLen a a alo alo bhi i i ≤ best.bestsize := by
        refine hcur (fun hc => ?_)
        rcases List.mem_cons.mp hc with h | h
        · omega
        · have := (List.pairwise_cons.mp hsort).1 i h
          omega
      have hnoup : ¬ best.bestsize < chainLen a a alo alo bhi i j := by
        have h1 : chainLen a a alo alo bhi i j = chainLen a a alo alo bhi j i :=
          chainLen_symm_self hlen i j hai hvj.1 hibh hvj.2.1
        have h2 : chainLen a a alo alo bhi j i ≤ chainLen a a alo alo bhi i i :=
          chainLen_le_diag_self j i
        omega
      rw [hstep2, if_neg hnoup] at happ
      exact happ hdiag hstar (fun _ => hii)

theorem rowsFold_diag {a : List Char} {alo bhi : ℕ} (hlen : bhi ≤ a.length) :
    ∀ (n : ℕ), alo + n ≤ bhi →
      ((List.range' alo n).foldl (rowStep a a alo bhi)
          ((fun _ => 0), (⟨alo, alo, 0⟩ : FlmBest))).2.besti
        = ((List.range' alo n).foldl (rowStep a a alo bhi)
            ((fun _ => 0), (⟨alo, alo, 0⟩ : FlmBest))).2.bestj
      ∧ ∀ i2, alo ≤ i2 → i2 < alo + n →
          chainLen a a alo alo bhi i2 i2
            ≤ ((List.range' alo n).foldl (rowStep a a alo bhi)
                ((fun _ => 0), (⟨alo, alo, 0⟩ : FlmBest))).2.bestsize := by
  intro n
  induction n with
  | zero =>
    intro _
    exact ⟨rfl, fun i2 h1 h2 => by omega⟩
  | succ n2 ih =>
    intro hn
    have ih2 := ih (by omega)
    rw [List.range'_1_concat, List.foldl_append, List.foldl_cons, List.foldl_nil]
    rw [rowStep]
    have happ := innerFold_diag
      ((List.range' alo n2).foldl (rowStep a a alo bhi)
        ((fun _ => 0), (⟨alo, alo, 0⟩ : FlmBest))).1
      (rowsFold_j2 n2) hlen (by omega) (by omega)
      (rowJs a alo bhi (a.getD (alo + n2) nullChar))
      (rowJs_sorted a alo bhi (a.getD (alo + n2) nullChar))
      (fun j hj => mem_rowJs_validJ.mp hj)
      (fun _ => 0)
      ((List.range' alo n2).foldl (rowStep a a alo bhi)
        ((fun _ => 0), (⟨alo, alo, 0⟩ : FlmBest))).2
      ih2.1
      (fun i2 h1 h2 => ih2.2 i2 h1 (by omega))
      (fun hni => by
        rw [chainLen_eq_zero (fun hv => hni (mem_rowJs_validJ.mpr hv))]
        exact Nat.zero_le _)
    refine ⟨happ.1, fun i2 h1 h2 => ?_⟩
    by_cases hlt : i2 < alo + n2
    · exact happ.2.1 i2 h1 hlt
    · have : i2 = alo + n2 := by omega
      rw [this]
      exact happ.2.2

theorem flmMain_diag {a : List Char} {alo ahi : ℕ} (hao : alo ≤ ahi)
    (hlen : ahi ≤ a.length) :
    (flmMain a a alo ahi alo ahi).besti = (flmMain a a alo ahi alo ahi).bestj := by
  rw [flmMain]
  exact (rowsFold_diag hlen (ahi - alo) (by omega)).1

theorem extendNonjunkBack_self {a : List Char} {alo : ℕ} :
    ∀ (f : ℕ) (st : FlmBest), st.bestj = st.besti → alo ≤ st.besti →
      st.besti - alo ≤ f →
      extendNonjunkBack a a noJunk alo alo f st
        = ⟨alo, alo, st.bestsize + (st.besti - alo)⟩ := by
  intro f
  induction f with
  | zero =>
    intro st hd ha hf
    obtain ⟨bi, bj, bs⟩ := st
    dsimp only at hd ha hf ⊢
    rw [extendNonjunkBack]
    rw [FlmBest.mk.injEq]
    refine ⟨by omega, by omega, by omega⟩
  | succ f2 ih =>
    intro st hd ha hf
    rw [extendNonjunkBack]
    by_cases hc : alo < st.besti ∧ alo < st.bestj ∧
        noJunk (a.getD (st.bestj - 1) nullChar) = false ∧
        a.getD (st.besti - 1) nullChar = a.getD (st.bestj - 1) nullChar
    · rw [if_pos hc]
      rw [ih ⟨st.besti - 1, st.bestj - 1, st.bestsize + 1⟩ (by dsimp only; omega)
        (by dsimp only; omega) (by dsimp only; omega)]
      dsimp only
      rw [FlmBest.mk.injEq]
      have h1 := hc.1
      refine ⟨rfl, rfl, by omega⟩
    · rw [if_neg hc]
      have hbe : st.besti = alo := by
        by_contra hne
        exact hc ⟨by omega, by omega, rfl, by rw [hd]⟩
      obtain ⟨bi, bj, bs⟩ := st
      dsimp only at hd hbe ⊢
      rw [FlmBest.mk.injEq]
      refine ⟨by omega, by omega, by omega⟩

theorem extendNonjunkFwd_self {a : List Char} {ahi : ℕ} :
    ∀ (f : ℕ) (st : FlmBest), st.bestj = st.besti →
      ahi - (st.besti + st.bestsize) ≤ f →
      extendNonjunkFwd a a noJunk ahi ahi f st
        = ⟨st.besti, st.bestj, st.bestsize + (ahi - (st.besti + st.bestsize))⟩ := by
  intro f
  induction f with
  | zero =>
    intro st hd hf
    obtain ⟨bi, bj, bs⟩ := st
    dsimp only at hd hf ⊢
    rw [extendNonjunkFwd]
    rw [FlmBest.mk.injEq]
    refine ⟨rfl, rfl, by omega⟩
  | succ f2 ih =>
    intro st hd hf
    rw [extendNonjunkFwd]
    by_cases hc : st.besti + st.bestsize < ahi ∧ st.bestj + st.bestsize < ahi ∧
        noJunk (a.getD (st.bestj + st.bestsize) nullChar) = false ∧
        a.getD (st.besti + st.bestsize) nullChar
          = a.getD (st.bestj + st.bestsize) nullChar
    · rw [if_pos hc]
      rw [ih ⟨st.besti, st.bestj, st.bestsize + 1⟩ (by dsimp only; exact hd)
        (by dsimp only; omega)]
      dsimp only
      rw [FlmBest.mk.injEq]
      have h1 := hc.1
      refine ⟨rfl, rfl, by omega⟩
    · rw [if_neg hc]
      have hbe : ahi ≤ st.besti + st.bestsize := by
        by_contra hne
        exact hc ⟨by omega, by omega, rfl, by rw [hd]⟩
      obtain ⟨bi, bj, bs⟩ := st
      dsimp only at hd hbe ⊢
      rw [FlmBest.mk.injEq]
      refine ⟨rfl, rfl, by omega⟩

theorem extendJunkBack_noJunk {a b : List Char} {alo blo : ℕ} :
    ∀ (f : ℕ) (st : FlmBest), extendJunkBack a b noJunk alo blo f st = st := by
  intro f
  induction f with
  | zero => intro st; rw [extendJunkBack]
  | succ f2 ih =>
    intro st
    rw [extendJunkBack, if_neg (fun hc => Bool.false_ne_true hc.2.2.1)]

theorem extendJunkFwd_noJunk {a b : List Char} {ahi bhi : ℕ} :
    ∀ (f : ℕ) (st : FlmBest), extendJunkFwd a b noJunk ahi bhi f st = st := by
  intro f
  induction f with
  | zero => intro st; rw [extendJunkFwd]
  | succ f2 ih =>
    intro st
    rw [extendJunkFwd, if_neg (fun hc => Bool.false_ne_true hc.2.2.1)]

theorem flm_self {a : List Char} {alo ahi : ℕ} (hao : alo ≤ ahi)
    (hlen : ahi ≤ a.length) :
    flm a a noJunk alo ahi alo ahi = ⟨alo, alo, ahi - alo⟩ := by
  rw [flm]
  rw [extendJunkFwd_noJunk, extendJunkBack_noJunk]
  have hb := flmMain_bounds a a alo ahi alo ahi hao hao
  have hd := flmMain_diag hao hlen
  rw [BestInv] at hb
  rw [extendNonjunkBack_self (flmMain a a alo ahi alo ahi).besti
    (flmMain a a alo ahi alo ahi) hd.symm hb.1 (by omega)]
  rw [extendNonjunkFwd_self ahi
    (⟨alo, alo, (flmMain a a alo ahi alo ahi).bestsize
      + ((flmMain a a alo ahi alo ahi).besti - alo)⟩ : FlmBest) rfl (by omega)]
  dsimp only
  rw [FlmBest.mk.injEq]
  have h1 := hb.1
  have h2 := hb.2.1
  refine ⟨rfl, rfl, by omega⟩

theorem matchTotalF_self {a : List Char} {alo ahi : ℕ} (hao : alo ≤ ahi)
    (hlen : ahi ≤ a.length) (f : ℕ) :
    matchTotalF a a noJunk (f + 1) alo ahi alo ahi = ahi - alo := by
  rw [matchTotalF, flm_self hao hlen]
  dsimp only
  by_cases h0 : ahi - alo = 0
  · rw [if_pos h0]
    omega
  · rw [if_neg h0, if_neg (fun hc : alo < alo ∧ alo < alo => by omega),
      if_neg (fun hc : alo + (ahi - alo) < ahi ∧ alo + (ahi - alo) < ahi => by omega)]
    omega

theorem mkRat_nat_self {n : ℕ} (h : n ≠ 0) : mkRat (n : ℤ) n = 1 := by
  rw [Rat.mkRat_eq_divInt]
  exact Rat.divInt_self' (by exact_mod_cast h)

theorem ratioQ_self (a : List Char) : ratioQ a a = 1 := by
  rw [ratioQ]
  by_cases h0 : a.length + a.length = 0
  · rw [if_pos h0]
  · rw [if_neg h0,
      matchTotalF_self (Nat.zero_le a.length) (le_refl a.length) (a.length + a.length)]
    rw [show 2 * (a.length - 0) = a.length + a.length from by omega]
    exact mkRat_nat_self h0

theorem similarity_ratio_refl (s : List Char) : similarity_ratio s s = 1 := by
  rw [similarity_ratio]
  exact ratioQ_self (lowerStr s)

theorem similarity_ratio_of_lower_eq {s1 s2 : List Char}
    (h : lowerStr s1 = lowerStr s2) : similarity_ratio s1 s2 = 1 := by
  rw [similarity_ratio, h]
  exact ratioQ_self (lowerStr s2)

/-- Claim C7: with the default thresholds, a candidate whose compared
artist list and title are exactly the track's normalized artists and
title, and whose duration equals the track's duration, is accepted:
`search_single_track` returns the candidate's url with both similarity
scores equal to `1`. -/
theorem claim_C7_exact_match (c : Candidate) (t : TrackInfo)
    (hd : deriveArtistTitle c = some (t.artists, t.song_name))
    (hdur : c.duration = t.duration_ms) :
    search_single_track c t defaultDurationTolerance defaultTitleThreshold
        defaultArtistThreshold = some (some c.webpage_url, 1, 1) := by
  have hgate : ¬ defaultDurationTolerance < |c.duration - t.duration_ms| := by
    rw [hdur, sub_self, abs_zero, defaultDurationTolerance]
    norm_num
  rw [search_single_track_eval c t defaultDurationTolerance defaultTitleThreshold
    defaultArtistThreshold t.artists t.song_name hgate hd]
  rw [similarity_ratio_refl, similarity_ratio_refl, if_neg (by decide)]

/-- Witness for C7: an exactly matching candidate (artists `["A"]`, title
`"X"`, duration `100`) against the corresponding track is returned with
its url and scores `(1, 1)`. -/
theorem claim_C7_exact_match_witness :
    search_single_track ⟨100, ("X").data, some [("A").data], ("u").data⟩
        ⟨[("A").data], ("X").data, 100, ("q").data, ("A - X").data⟩
        defaultDurationTolerance defaultTitleThreshold defaultArtistThreshold
      = some (some (("u").data), 1, 1) :=
  claim_C7_exact_match ⟨100, ("X").data, some [("A").data], ("u").data⟩
    ⟨[("A").data], ("X").data, 100, ("q").data, ("A - X").data⟩
    (by decide) rfl

/-- Counterexample to C9 as stated: `similarity_ratio` is NOT symmetric.
On `"ABqCDE"` / `"CDxEAB"` the two orders give `1/3` and `1/2`
(`SequenceMatcher.ratio` depends on the argument order through
`find_longest_match`'s tie-breaking over `b2j`). -/
theorem claim_C9_counterexample :
    similarity_ratio (("ABqCDE").data) (("CDxEAB").data) = mkRat 1 3 ∧
    similarity_ratio (("CDxEAB").data) (("ABqCDE").data) = mkRat 1 2 ∧
    ¬ (mkRat 1 3 = mkRat 1 2 : Prop) := by
  decide

/-- Claim C9 (amended): `similarity_ratio` always lies in `[0, 1]`, is `1`
on every pair of case-insensitively identical strings (in particular
`similarity_ratio a a = 1` for every `a`), but is not symmetric in
general. -/
theorem claim_C9_amended_similarity :
    (∀ a b : List Char, 0 ≤ similarity_ratio a b ∧ similarity_ratio a b ≤ 1) ∧
    (∀ a : List Char, similarity_ratio a a = 1) ∧
    (∀ a b : List Char, lowerStr a = lowerStr b → similarity_ratio a b = 1) := by
  refine ⟨fun a b => ⟨ratioQ_nonneg _ _, ratioQ_le_one _ _⟩,
    similarity_ratio_refl, fun a b h => similarity_ratio_of_lower_eq h⟩

/-- Witness for the amended C9 at concrete inputs (`"Ab"` vs `"aB"`). -/
theorem claim_C9_amended_similarity_witness :
    (0 ≤ similarity_ratio (("Ab").data) (("aB").data) ∧
      similarity_ratio (("Ab").data) (("aB").data) ≤ 1) ∧
    similarity_ratio (("Ab").data) (("Ab").data) = 1 ∧
    similarity_ratio (("Ab").data) (("aB").data) = 1 :=
  ⟨claim_C9_amended_similarity.1 (("Ab").data) (("aB").data),
   claim_C9_amended_similarity.2.1 (("Ab").data),
   claim_C9_amended_similarity.2.2 (("Ab").data) (("aB").data) (by decide)⟩

end MP3ify
